import Mathlib

/-!
Verification of the deep-research agent runtime kernel against its
natural-language specification.  Each section shallowly embeds one Python
module of the repository (message queue, orchestrator/registry, event store,
audit trail, memory tiers, GDPR gate) as executable Lean definitions, and the
theorems at the end settle the spec claims C1..C10 against those definitions.
-/

namespace Spec2Proof

/-! ## Message queue (src/core/message_queue.py)

`MessagePriority` is the Python enum with values LOW=1, NORMAL=5, HIGH=8,
CRITICAL=10.  `messagePriorityOfValue` models the enum constructor
`MessagePriority(n)`, which raises `ValueError` (here: `none`) for any `n`
that is not a member value. -/

inductive MessagePriority
  | LOW
  | NORMAL
  | HIGH
  | CRITICAL
deriving DecidableEq

def MessagePriority.value : MessagePriority → Nat
  | .LOW => 1
  | .NORMAL => 5
  | .HIGH => 8
  | .CRITICAL => 10

def messagePriorityOfValue : Nat → Option MessagePriority
  | 1 => some .LOW
  | 5 => some .NORMAL
  | 8 => some .HIGH
  | 10 => some .CRITICAL
  | _ => none

/-- Opaque key/value payload (`Dict[str, Any]` in the source). -/
abbrev Payload := List (String × String)

/-- `Message` dataclass.  Timestamps are seconds since the epoch. -/
structure Message where
  id : Nat
  topic : String
  payload : Payload
  timestamp : Nat
  priority : MessagePriority
  retry_count : Nat
  max_retries : Nat
  ttl_seconds : Option Nat
deriving DecidableEq

/-- One stored element of a topic's `asyncio.PriorityQueue`: `publish` puts
the tuple `(-message.priority.value, message)`. -/
structure Entry where
  negPriority : Int
  msg : Message
deriving DecidableEq

/-- The strict order used by the priority queue on stored tuples: Python
compares `(-p, message)` lexicographically, and `Message.__lt__` compares
timestamps when the priorities are equal. -/
def entryLt (a b : Entry) : Bool :=
  decide (a.negPriority < b.negPriority ∨
    (a.negPriority = b.negPriority ∧ a.msg.timestamp < b.msg.timestamp))

/-- `MessageQueue` state: per-topic queues, subscriber counts per topic
(callbacks themselves are opaque), and the dead-letter queue. -/
structure MQState where
  topics : List (String × List Entry)
  subscribers : List (String × Nat)
  dead_letter_queue : List Message
deriving DecidableEq

def mqInit : MQState := { topics := [], subscribers := [], dead_letter_queue := [] }

def lookupTopic (st : MQState) (t : String) : Option (List Entry) :=
  (st.topics.find? (fun p => p.1 == t)).map (·.2)

/-- The multiset of entries currently queued under topic `t` (empty when the
topic does not exist). -/
def queueOf (st : MQState) (t : String) : List Entry :=
  (lookupTopic st t).getD []

def setTopic (st : MQState) (t : String) (q : List Entry) : MQState :=
  if (st.topics.find? (fun p => p.1 == t)).isSome then
    { st with topics := st.topics.map (fun p => if p.1 == t then (t, q) else p) }
  else
    { st with topics := st.topics ++ [(t, q)] }

/-- Arguments of one `publish` call; `id` stands for the generated uuid and
`now` for `datetime.now` at the moment of the call. -/
structure PublishReq where
  payload : Payload
  topic : String
  priority : MessagePriority
  ttl_seconds : Option Nat
  id : Nat
  now : Nat
deriving DecidableEq

def mkMessage (r : PublishReq) : Message :=
  { id := r.id, topic := r.topic, payload := r.payload, timestamp := r.now,
    priority := r.priority, retry_count := 0, max_retries := 3,
    ttl_seconds := r.ttl_seconds }

def entryOf (m : Message) : Entry := { negPriority := -(m.priority.value : Int), msg := m }

/-- `MessageQueue.publish`: build the message, create the topic queue if it
does not exist, and add `(-priority.value, message)` to it. -/
def publish (r : PublishReq) (st : MQState) : Nat × MQState :=
  let m := mkMessage r
  (m.id, setTopic st r.topic (queueOf st r.topic ++ [entryOf m]))

/-- `MessageQueue.subscribe`: record the callback and create the topic queue
if it does not exist. -/
def subscribe (t : String) (st : MQState) : MQState :=
  let subs :=
    if (st.subscribers.find? (fun p => p.1 == t)).isSome then
      st.subscribers.map (fun p => if p.1 == t then (t, p.2 + 1) else p)
    else st.subscribers ++ [(t, 1)]
  let st1 := { st with subscribers := subs }
  if (lookupTopic st1 t).isSome then st1 else setTopic st1 t []

def unsubscribe (t : String) (st : MQState) : MQState :=
  { st with subscribers :=
      st.subscribers.filterMap (fun p =>
        if p.1 == t then (if p.2 ≤ 1 then none else some (t, p.2 - 1)) else some p) }

/-- Extraction of a minimal element from the priority-queue multiset: the heap
pops an element that is minimal in the `entryLt` order; we fix the leftmost
minimal one.  Returns the popped entry and the remaining entries. -/
def popMin : List Entry → Option (Entry × List Entry)
  | [] => none
  | e :: es =>
    match popMin es with
    | none => some (e, [])
    | some (m, rest) => if entryLt m e then some (m, e :: rest) else some (e, es)

/-- `self.dead_letter_queue.put(message)`. -/
def pushDLQ (st : MQState) (m : Message) : MQState :=
  { st with dead_letter_queue := st.dead_letter_queue ++ [m] }

/-- `MessageQueue.consume`: `None` for an unknown topic; otherwise pop the
minimal entry; then the TTL check `if message.ttl_seconds:` (Python truthiness,
so `None` and `0` both skip the check) with `age > ttl` routing to the DLQ. -/
def consume (t : String) (now : Nat) (st : MQState) : Option Message × MQState :=
  match lookupTopic st t with
  | none => (none, st)
  | some q =>
    match popMin q with
    | none => (none, st)
    | some (e, rest) =>
      let st1 := setTopic st t rest
      match e.msg.ttl_seconds with
      | none => (some e.msg, st1)
      | some ttl =>
        if ttl ≠ 0 ∧ (now : Int) - (e.msg.timestamp : Int) > (ttl : Int) then
          (none, pushDLQ st1 e.msg)
        else
          (some e.msg, st1)

/-- `MessageQueue.reject`: when requeueing with retries left, the Python code
increments `message.retry_count` on the local object and then republishes the
payload with `MessagePriority(max(1, message.priority.value - 1))` — an enum
lookup that raises `ValueError` (`Except.error`) whenever `value - 1` is not a
member value.  Otherwise the message goes to the dead-letter queue. -/
def reject (m : Message) (requeue : Bool) (newId now : Nat) (st : MQState) :
    Except String MQState :=
  if requeue ∧ m.retry_count < m.max_retries then
    match messagePriorityOfValue (max 1 (m.priority.value - 1)) with
    | none => .error "ValueError: not a valid MessagePriority"
    | some p =>
      .ok (publish { payload := m.payload, topic := m.topic, priority := p,
                     ttl_seconds := none, id := newId, now := now } st).2
  else
    .ok (pushDLQ st m)

def purgeTopic (t : String) (st : MQState) : MQState :=
  if (lookupTopic st t).isSome then setTopic st t [] else st

/-- Repeated `consume` until it yields `⊥`, collecting the messages. -/
def consumeAll : Nat → String → Nat → MQState → List Message
  | 0, _, _, _ => []
  | fuel + 1, t, now, st =>
    match consume t now st with
    | (some m, st1) => m :: consumeAll fuel t now st1
    | (none, _) => []

def publishAll (rs : List PublishReq) (st : MQState) : MQState :=
  rs.foldl (fun s r => (publish r s).2) st

/-- The delivery order claimed by the spec: decreasing priority, and ascending
timestamp among equal priorities. -/
def keyLe (m1 m2 : Message) : Prop :=
  m2.priority.value < m1.priority.value ∨
    (m1.priority.value = m2.priority.value ∧ m1.timestamp ≤ m2.timestamp)

instance : DecidablePred fun p : Message × Message => keyLe p.1 p.2 := by
  intro p; unfold keyLe; infer_instance

instance (m1 m2 : Message) : Decidable (keyLe m1 m2) := by
  unfold keyLe; infer_instance

/-- An entry as stored by `publish`: its tuple key is minus the priority value
of its message. -/
def wellKeyed (e : Entry) : Prop := e.negPriority = -(e.msg.priority.value : Int)

instance (e : Entry) : Decidable (wellKeyed e) := by
  unfold wellKeyed; infer_instance

/-! ### Queue lemmas -/

theorem find?_update_self (l : List (String × List Entry)) (t : String) (q : List Entry)
    (h : (l.find? (fun p => p.1 == t)).isSome) :
    ((l.map (fun p => if p.1 == t then (t, q) else p)).find? (fun p => p.1 == t))
      = some (t, q) := by
  rw [List.find?_map]
  have hcomp : ((fun p : String × List Entry => p.1 == t) ∘
      (fun p => if p.1 == t then (t, q) else p))
      = (fun p : String × List Entry => p.1 == t) := by
    funext x
    by_cases hx : x.1 = t <;> simp [Function.comp, hx]
  rw [hcomp]
  cases hfind : l.find? (fun p => p.1 == t) with
  | none => rw [hfind] at h; simp at h
  | some v =>
    have hv : v.1 = t := by simpa using List.find?_some hfind
    simp [hv]

theorem find?_update_ne (l : List (String × List Entry)) (s t : String) (q : List Entry)
    (h : s ≠ t) :
    ((l.map (fun p => if p.1 == s then (s, q) else p)).find? (fun p => p.1 == t))
      = l.find? (fun p => p.1 == t) := by
  rw [List.find?_map]
  have hcomp : ((fun p : String × List Entry => p.1 == t) ∘
      (fun p => if p.1 == s then (s, q) else p))
      = (fun p : String × List Entry => p.1 == t) := by
    funext x
    by_cases hx : x.1 = s
    · simp [Function.comp, hx, h]
    · simp [Function.comp, hx]
  rw [hcomp]
  cases hfind : l.find? (fun p => p.1 == t) with
  | none => simp
  | some v =>
    have hv : v.1 = t := by simpa using List.find?_some hfind
    have hvs : ¬ v.1 = s := by rw [hv]; exact fun hc => h hc.symm
    simp [hvs]

theorem lookupTopic_setTopic (st : MQState) (s t : String) (q : List Entry) :
    lookupTopic (setTopic st s q) t =
      if s = t then some q else lookupTopic st t := by
  by_cases hpresent : (st.topics.find? (fun p => p.1 == s)).isSome
  · unfold setTopic
    rw [if_pos hpresent]
    unfold lookupTopic
    by_cases hst : s = t
    · subst hst
      rw [show (fun p : String × List Entry => if p.1 == s then (s, q) else p)
            = (fun p => if p.1 == s then (s, q) else p) from rfl]
      rw [find?_update_self st.topics s q hpresent]
      simp
    · rw [find?_update_ne st.topics s t q hst]
      simp [hst, lookupTopic]
  · unfold setTopic
    rw [if_neg hpresent]
    unfold lookupTopic
    simp only [List.find?_append]
    by_cases hst : s = t
    · subst hst
      have hnone : st.topics.find? (fun p => p.1 == s) = none := by
        cases hfind : st.topics.find? (fun p => p.1 == s) with
        | none => rfl
        | some v => rw [hfind] at hpresent; simp at hpresent
      rw [hnone]
      simp [List.find?]
    · have hf2 : (([(s, q)] : List (String × List Entry)).find?
          (fun p => p.1 == t)) = none := by
        have hb : (s == t) = false := by simp [hst]
        simp [List.find?, hb]
      rw [hf2]
      simp [hst]

theorem queueOf_setTopic (st : MQState) (s t : String) (q : List Entry) :
    queueOf (setTopic st s q) t = if s = t then q else queueOf st t := by
  unfold queueOf
  rw [lookupTopic_setTopic]
  by_cases hst : s = t <;> simp [hst]

/-! ### popMin lemmas -/

theorem popMin_eq_none {l : List Entry} : popMin l = none ↔ l = [] := by
  cases l with
  | nil => simp [popMin]
  | cons e es =>
    simp only [popMin]
    cases h : popMin es with
    | none => simp
    | some p => cases p with | mk m rest => by_cases hlt : entryLt m e <;> simp [hlt]

theorem popMin_perm : ∀ {l : List Entry} {e : Entry} {rest : List Entry},
    popMin l = some (e, rest) → l.Perm (e :: rest) := by
  intro l
  induction l with
  | nil => intro e rest h; simp [popMin] at h
  | cons a es ih =>
    intro e rest h
    simp only [popMin] at h
    split at h
    next hes =>
      have hnil : es = [] := popMin_eq_none.mp hes
      subst hnil
      simp only [Option.some.injEq, Prod.mk.injEq] at h
      obtain ⟨rfl, rfl⟩ := h
      exact List.Perm.refl _
    next m r hes =>
      by_cases hlt : entryLt m a
      · rw [if_pos hlt] at h
        simp only [Option.some.injEq, Prod.mk.injEq] at h
        obtain ⟨rfl, rfl⟩ := h
        exact ((ih hes).cons a).trans (List.Perm.swap _ a r)
      · rw [if_neg hlt] at h
        simp only [Option.some.injEq, Prod.mk.injEq] at h
        obtain ⟨rfl, rfl⟩ := h
        exact List.Perm.refl _

theorem entryLt_asymm {a b : Entry} (h : entryLt a b = true) : entryLt b a = false := by
  simp only [entryLt, decide_eq_true_eq, decide_eq_false_iff_not] at h ⊢
  omega

theorem entryLt_le_trans {a b c : Entry} (h1 : entryLt b a = false)
    (h2 : entryLt c b = false) : entryLt c a = false := by
  simp only [entryLt, decide_eq_false_iff_not] at h1 h2 ⊢
  omega

theorem popMin_min : ∀ {l : List Entry} {e : Entry} {rest : List Entry},
    popMin l = some (e, rest) → ∀ x ∈ rest, entryLt x e = false := by
  intro l
  induction l with
  | nil => intro e rest h; simp [popMin] at h
  | cons a es ih =>
    intro e rest h x hx
    simp only [popMin] at h
    split at h
    next =>
      simp only [Option.some.injEq, Prod.mk.injEq] at h
      obtain ⟨rfl, rfl⟩ := h
      simp at hx
    next m r hes =>
      by_cases hlt : entryLt m a
      · rw [if_pos hlt] at h
        simp only [Option.some.injEq, Prod.mk.injEq] at h
        obtain ⟨rfl, rfl⟩ := h
        rcases List.mem_cons.mp hx with hxa | hxr
        · subst hxa; exact entryLt_asymm hlt
        · exact ih hes x hxr
      · rw [if_neg hlt] at h
        simp only [Option.some.injEq, Prod.mk.injEq] at h
        obtain ⟨rfl, rfl⟩ := h
        have hlt' : entryLt m a = false := by
          cases hv : entryLt m a with
          | false => rfl
          | true => exact absurd hv hlt
        have hmem : x ∈ m :: r := (popMin_perm hes).mem_iff.mp hx
        rcases List.mem_cons.mp hmem with hxm | hxr
        · subst hxm; exact hlt'
        · exact entryLt_le_trans hlt' (ih hes x hxr)

theorem keyLe_of_not_entryLt {x e : Entry} (hwx : wellKeyed x) (hwe : wellKeyed e)
    (h : entryLt x e = false) : keyLe e.msg x.msg := by
  simp only [entryLt, decide_eq_false_iff_not] at h
  unfold wellKeyed at hwx hwe
  unfold keyLe
  omega

/-! ### Drain: consuming everything yields a sorted permutation -/

theorem consume_empty {st : MQState} {t : String} (now : Nat)
    (h : queueOf st t = []) : consume t now st = (none, st) := by
  unfold consume
  cases hl : lookupTopic st t with
  | none => rfl
  | some q =>
    have : q = [] := by unfold queueOf at h; rw [hl] at h; simpa using h
    subst this
    simp [popMin]

theorem consume_popMin {st : MQState} {t : String} {now : Nat} {e : Entry}
    {rest : List Entry} (hq : popMin (queueOf st t) = some (e, rest))
    (httl : e.msg.ttl_seconds = none) :
    consume t now st = (some e.msg, setTopic st t rest) := by
  unfold consume
  cases hl : lookupTopic st t with
  | none =>
    unfold queueOf at hq; rw [hl] at hq; simp [popMin] at hq
  | some q =>
    have hqq : queueOf st t = q := by unfold queueOf; rw [hl]; rfl
    rw [hqq] at hq
    simp only [hq, httl]

theorem consumeAll_sorted_perm : ∀ (fuel : Nat) (st : MQState) (t : String) (now : Nat),
    (queueOf st t).length ≤ fuel →
    (∀ e ∈ queueOf st t, e.msg.ttl_seconds = none) →
    (∀ e ∈ queueOf st t, wellKeyed e) →
    (consumeAll fuel t now st).Perm ((queueOf st t).map (·.msg)) ∧
      (consumeAll fuel t now st).Pairwise keyLe := by
  intro fuel
  induction fuel with
  | zero =>
    intro st t now hlen _ _
    have : queueOf st t = [] := List.length_eq_zero.mp (Nat.le_zero.mp hlen)
    simp [consumeAll, this]
  | succ fuel ih =>
    intro st t now hlen httl hwk
    cases hq : popMin (queueOf st t) with
    | none =>
      have hempty : queueOf st t = [] := popMin_eq_none.mp hq
      rw [consumeAll, consume_empty now hempty]
      simp [hempty]
    | some p =>
      cases p with
      | mk e rest =>
        have hperm : (queueOf st t).Perm (e :: rest) := popMin_perm hq
        have hmem_e : e ∈ queueOf st t := hperm.mem_iff.mpr (List.mem_cons_self e rest)
        have hrest_mem : ∀ x ∈ rest, x ∈ queueOf st t := fun x hx =>
          hperm.mem_iff.mpr (List.mem_cons_of_mem e hx)
        have httl_e : e.msg.ttl_seconds = none := httl e hmem_e
        rw [consumeAll, consume_popMin hq httl_e]
        have hqrest : queueOf (setTopic st t rest) t = rest := by
          rw [queueOf_setTopic]; simp
        have hlen' : (queueOf (setTopic st t rest) t).length ≤ fuel := by
          rw [hqrest]
          have : (queueOf st t).length = rest.length + 1 := by
            rw [hperm.length_eq]; simp
          omega
        have httl' : ∀ x ∈ queueOf (setTopic st t rest) t, x.msg.ttl_seconds = none := by
          rw [hqrest]; exact fun x hx => httl x (hrest_mem x hx)
        have hwk' : ∀ x ∈ queueOf (setTopic st t rest) t, wellKeyed x := by
          rw [hqrest]; exact fun x hx => hwk x (hrest_mem x hx)
        obtain ⟨ihperm, ihsorted⟩ := ih (setTopic st t rest) t now hlen' httl' hwk'
        rw [hqrest] at ihperm
        constructor
        · have h1 : (e.msg :: consumeAll fuel t now (setTopic st t rest)).Perm
              (e.msg :: rest.map (·.msg)) := ihperm.cons e.msg
          have h2 : ((queueOf st t).map (·.msg)).Perm (e.msg :: rest.map (·.msg)) := by
            simpa using hperm.map (·.msg)
          exact h1.trans h2.symm
        · refine List.pairwise_cons.mpr ⟨?_, ihsorted⟩
          intro y hy
          have hy' : y ∈ rest.map (·.msg) := ihperm.mem_iff.mp hy
          obtain ⟨x, hxrest, hxy⟩ := List.mem_map.mp hy'
          subst hxy
          exact keyLe_of_not_entryLt (hwk x (hrest_mem x hxrest)) (hwk e hmem_e)
            (popMin_min hq x hxrest)

theorem queueOf_publish (r : PublishReq) (st : MQState) (t : String) :
    queueOf (publish r st).2 t =
      if r.topic = t then queueOf st t ++ [entryOf (mkMessage r)] else queueOf st t := by
  unfold publish
  simp only [queueOf_setTopic]
  by_cases hrt : r.topic = t
  · rw [if_pos hrt, if_pos hrt, hrt]
  · rw [if_neg hrt, if_neg hrt]

theorem queueOf_publishAll (rs : List PublishReq) (t : String) :
    ∀ st : MQState, (∀ r ∈ rs, r.topic = t) →
    queueOf (publishAll rs st) t =
      queueOf st t ++ rs.map (fun r => entryOf (mkMessage r)) := by
  induction rs with
  | nil => intro st _; simp [publishAll]
  | cons r rs ih =>
    intro st h
    have hr : r.topic = t := h r (List.mem_cons_self r rs)
    have hrs : ∀ x ∈ rs, x.topic = t := fun x hx => h x (List.mem_cons_of_mem r hx)
    show queueOf (publishAll rs (publish r st).2) t = _
    rw [ih (publish r st).2 hrs, queueOf_publish, if_pos hr]
    simp

/-! ### Queue operation traces (for claim C10) -/

inductive MQOp
  | pub (r : PublishReq)
  | sub (t : String)
  | unsub (t : String)
  | con (t : String) (now : Nat)
  | purge (t : String)
deriving DecidableEq

def stepMQ (st : MQState) : MQOp → MQState
  | .pub r => (publish r st).2
  | .sub t => subscribe t st
  | .unsub t => unsubscribe t st
  | .con t now => (consume t now st).2
  | .purge t => purgeTopic t st

def runMQ (ops : List MQOp) (st : MQState) : MQState := ops.foldl stepMQ st

/-- Whether the operation can create topic `t`: only `publish` to `t` and
`subscribe` on `t` ever create a topic. -/
def MQOp.createsTopic : MQOp → String → Bool
  | .pub r, t => r.topic == t
  | .sub s, t => s == t
  | _, _ => false

theorem lookupTopic_pushDLQ (st : MQState) (m : Message) (t : String) :
    lookupTopic (pushDLQ st m) t = lookupTopic st t := rfl

theorem consume_preserves_absent (s : String) (now : Nat) (st : MQState) (t : String)
    (h : lookupTopic st t = none) :
    lookupTopic (consume s now st).2 t = none := by
  unfold consume
  split
  · exact h
  next q hl =>
    have hst : s ≠ t := fun he => by rw [he, h] at hl; cases hl
    split
    · exact h
    next e rest hp =>
      dsimp only
      split
      · rw [lookupTopic_setTopic, if_neg hst]; exact h
      split
      · rw [lookupTopic_pushDLQ, lookupTopic_setTopic, if_neg hst]; exact h
      · rw [lookupTopic_setTopic, if_neg hst]; exact h

theorem stepMQ_preserves_absent (st : MQState) (op : MQOp) (t : String)
    (h : lookupTopic st t = none) (hop : op.createsTopic t = false) :
    lookupTopic (stepMQ st op) t = none := by
  cases op with
  | pub r =>
    have hne : r.topic ≠ t := by
      intro he; rw [← he] at hop; simp [MQOp.createsTopic] at hop
    unfold stepMQ publish
    simpa [lookupTopic_setTopic, hne] using h
  | sub s =>
    have hne : s ≠ t := by
      intro he; rw [← he] at hop; simp [MQOp.createsTopic] at hop
    unfold stepMQ subscribe
    dsimp only
    split
    all_goals
      split
      · exact h
      · rw [lookupTopic_setTopic, if_neg hne]; exact h
  | unsub s => exact h
  | con s now => exact consume_preserves_absent s now st t h
  | purge s =>
    show lookupTopic (purgeTopic s st) t = none
    unfold purgeTopic
    split
    next hpres =>
      have hne : s ≠ t := by
        intro he
        rw [he] at hpres
        rw [show lookupTopic st t = none from h] at hpres
        simp at hpres
      rw [lookupTopic_setTopic, if_neg hne]; exact h
    · exact h

theorem runMQ_preserves_absent (ops : List MQOp) (t : String) :
    ∀ st : MQState, lookupTopic st t = none →
      (∀ op ∈ ops, op.createsTopic t = false) →
      lookupTopic (runMQ ops st) t = none := by
  induction ops with
  | nil => intro st h _; exact h
  | cons op ops ih =>
    intro st h hops
    exact ih (stepMQ st op)
      (stepMQ_preserves_absent st op t h (hops op (List.mem_cons_self op ops)))
      (fun o ho => hops o (List.mem_cons_of_mem op ho))

theorem consume_absent_topic (st : MQState) (t : String) (now : Nat)
    (h : lookupTopic st t = none) : consume t now st = (none, st) := by
  unfold consume
  rw [h]

/-! ## Claim theorems for the message queue -/

/-- **C1.** For every topic, successive `consume` calls yield the published
messages in `(−priority, timestamp)` order: publishing any list of TTL-free
requests to one topic and then draining it yields a permutation of the
published messages that is pairwise ordered by decreasing priority, and by
ascending publish timestamp among equal priorities. -/
theorem consume_order_C1 (rs : List PublishReq) (t : String) (now fuel : Nat)
    (htopic : ∀ r ∈ rs, r.topic = t)
    (httl : ∀ r ∈ rs, r.ttl_seconds = none)
    (hfuel : rs.length ≤ fuel) :
    (consumeAll fuel t now (publishAll rs mqInit)).Perm (rs.map mkMessage) ∧
      (consumeAll fuel t now (publishAll rs mqInit)).Pairwise keyLe := by
  have hq : queueOf (publishAll rs mqInit) t
      = rs.map (fun r => entryOf (mkMessage r)) := by
    rw [queueOf_publishAll rs t mqInit htopic]
    simp [queueOf, lookupTopic, mqInit]
  have hlen : (queueOf (publishAll rs mqInit) t).length ≤ fuel := by
    rw [hq]; simpa using hfuel
  have httl' : ∀ e ∈ queueOf (publishAll rs mqInit) t, e.msg.ttl_seconds = none := by
    rw [hq]
    intro e he
    obtain ⟨r, hr, rfl⟩ := List.mem_map.mp he
    exact httl r hr
  have hwk : ∀ e ∈ queueOf (publishAll rs mqInit) t, wellKeyed e := by
    rw [hq]
    intro e he
    obtain ⟨r, _, rfl⟩ := List.mem_map.mp he
    rfl
  obtain ⟨hperm, hsorted⟩ :=
    consumeAll_sorted_perm fuel (publishAll rs mqInit) t now hlen httl' hwk
  refine ⟨?_, hsorted⟩
  refine hperm.trans ?_
  rw [hq, List.map_map]
  exact List.Perm.refl _

/-- Witness for C1, publishing the spec's scenario-2 priorities
(NORMAL, NORMAL, HIGH, LOW, CRITICAL in timestamp order) and draining. -/
theorem consume_order_C1_witness :
    (∀ r ∈ [
      ({ payload := [], topic := "x", priority := .NORMAL, ttl_seconds := none,
         id := 1, now := 1 } : PublishReq),
      { payload := [], topic := "x", priority := .NORMAL, ttl_seconds := none,
         id := 2, now := 2 },
      { payload := [], topic := "x", priority := .HIGH, ttl_seconds := none,
         id := 3, now := 3 },
      { payload := [], topic := "x", priority := .LOW, ttl_seconds := none,
         id := 4, now := 4 },
      { payload := [], topic := "x", priority := .CRITICAL, ttl_seconds := none,
         id := 5, now := 5 }], r.topic = "x" ∧ r.ttl_seconds = none) ∧
    ((consumeAll 5 "x" 9 (publishAll [
      { payload := [], topic := "x", priority := .NORMAL, ttl_seconds := none,
         id := 1, now := 1 },
      { payload := [], topic := "x", priority := .NORMAL, ttl_seconds := none,
         id := 2, now := 2 },
      { payload := [], topic := "x", priority := .HIGH, ttl_seconds := none,
         id := 3, now := 3 },
      { payload := [], topic := "x", priority := .LOW, ttl_seconds := none,
         id := 4, now := 4 },
      { payload := [], topic := "x", priority := .CRITICAL, ttl_seconds := none,
         id := 5, now := 5 }] mqInit)).map (fun m => m.id)) = [5, 3, 1, 2, 4] := by
  refine ⟨by decide, ?_⟩
  have h := consume_order_C1 [
      { payload := [], topic := "x", priority := .NORMAL, ttl_seconds := none,
         id := 1, now := 1 },
      { payload := [], topic := "x", priority := .NORMAL, ttl_seconds := none,
         id := 2, now := 2 },
      { payload := [], topic := "x", priority := .HIGH, ttl_seconds := none,
         id := 3, now := 3 },
      { payload := [], topic := "x", priority := .LOW, ttl_seconds := none,
         id := 4, now := 4 },
      { payload := [], topic := "x", priority := .CRITICAL, ttl_seconds := none,
         id := 5, now := 5 }] "x" 9 5 (by decide) (by decide) (by decide)
  exact by decide

/-- **C10.** Consuming from a topic that was never published to or subscribed
to returns `⊥` immediately, without error and without changing the state (in
particular the set of topics is unchanged). -/
theorem consume_unknown_topic_C10 (ops : List MQOp) (t : String) (now : Nat)
    (h : ∀ op ∈ ops, op.createsTopic t = false) :
    consume t now (runMQ ops mqInit) = (none, runMQ ops mqInit) := by
  have habs : lookupTopic (runMQ ops mqInit) t = none :=
    runMQ_preserves_absent ops t mqInit rfl h
  exact consume_absent_topic _ t now habs

/-- Witness for C10: a trace that publishes and subscribes on other topics
and then consumes from the untouched topic `c`. -/
theorem consume_unknown_topic_C10_witness :
    (∀ op ∈ [
      MQOp.pub { payload := [("k", "v")], topic := "a", priority := .NORMAL,
                 ttl_seconds := none, id := 1, now := 0 },
      MQOp.sub "b", MQOp.con "a" 2, MQOp.purge "a", MQOp.unsub "b"],
      op.createsTopic "c" = false) ∧
    consume "c" 7 (runMQ [
      MQOp.pub { payload := [("k", "v")], topic := "a", priority := .NORMAL,
                 ttl_seconds := none, id := 1, now := 0 },
      MQOp.sub "b", MQOp.con "a" 2, MQOp.purge "a", MQOp.unsub "b"] mqInit)
      = (none, runMQ [
      MQOp.pub { payload := [("k", "v")], topic := "a", priority := .NORMAL,
                 ttl_seconds := none, id := 1, now := 0 },
      MQOp.sub "b", MQOp.con "a" 2, MQOp.purge "a", MQOp.unsub "b"] mqInit) := by
  refine ⟨by decide, ?_⟩
  exact consume_unknown_topic_C10 _ "c" 7 (by decide)

/-! ## Claims C5 and C6 -/

/-- Failing input for C5: a NORMAL-priority message with retries left. -/
def rejectNormalMsg : Message :=
  { id := 7, topic := "tasks", payload := [("k", "v")], timestamp := 0,
    priority := .NORMAL, retry_count := 0, max_retries := 3, ttl_seconds := none }

/-- A LOW-priority message with retries left (the only priority for which
`reject` does not crash). -/
def rejectLowMsg : Message :=
  { id := 8, topic := "tasks", payload := [("k", "v")], timestamp := 0,
    priority := .LOW, retry_count := 0, max_retries := 3, ttl_seconds := none }

/-- **C5** (code bug): rejecting a NORMAL-priority message with retries left
crashes — `MessagePriority(max(1, 5 - 1)) = MessagePriority(4)` raises
`ValueError` because 4 is not an enum member value (the genuine "one step
down the scale" would be LOW = 1); and in the only non-crashing case (LOW)
the republished message carries `retry_count = 0` and priority LOW, not
`retry_count + 1`, because `publish` builds a fresh message with the default
retry count. -/
theorem reject_requeue_bug_C5 :
    reject rejectNormalMsg true 9 10 mqInit
        = .error "ValueError: not a valid MessagePriority" ∧
      ((reject rejectLowMsg true 9 10 mqInit).toOption.map
          (fun st => (queueOf st "tasks").map
            (fun e => (e.msg.retry_count, e.msg.priority))))
        = some [(0, .LOW)] := by
  constructor
  · rfl
  · rfl

/-- The publish request used by the C6 counterexample: `ttl_seconds = 0`. -/
def ttlZeroReq : PublishReq :=
  { payload := [("k", "v")], topic := "x", priority := .NORMAL,
    ttl_seconds := some 0, id := 1, now := 0 }

def ttlZeroState : MQState := (publish ttlZeroReq mqInit).2

/-- **C6 counterexample**: by the claim, a message published with
`ttlSeconds = 0` is expired immediately on dequeue (dead-lettered, `consume`
returns ⊥).  In the code `if message.ttl_seconds:` is Python-falsy for `0`,
so consuming it five seconds after publication still returns the message and
leaves the dead-letter queue empty. -/
theorem ttl_zero_counterexample_C6 :
    (consume "x" 5 ttlZeroState).1 = some (mkMessage ttlZeroReq) ∧
      (consume "x" 5 ttlZeroState).2.dead_letter_queue = [] := by
  constructor
  · rfl
  · rfl

/-- Characterisation of one `consume` call once the dequeued entry is known
and it carries a TTL. -/
theorem consume_char_some (st : MQState) (t : String) (now : Nat)
    (q : List Entry) (e : Entry) (rest : List Entry) (ttl : Nat)
    (hl : lookupTopic st t = some q) (hp : popMin q = some (e, rest))
    (httl : e.msg.ttl_seconds = some ttl) :
    consume t now st =
      if ttl ≠ 0 ∧ (now : Int) - (e.msg.timestamp : Int) > (ttl : Int)
      then (none, pushDLQ (setTopic st t rest) e.msg)
      else (some e.msg, setTopic st t rest) := by
  unfold consume
  rw [hl]
  simp only [hp, httl]

/-- Characterisation of one `consume` call once the dequeued entry is known
and it carries no TTL. -/
theorem consume_char_none (st : MQState) (t : String) (now : Nat)
    (q : List Entry) (e : Entry) (rest : List Entry)
    (hl : lookupTopic st t = some q) (hp : popMin q = some (e, rest))
    (httl : e.msg.ttl_seconds = none) :
    consume t now st = (some e.msg, setTopic st t rest) := by
  unfold consume
  rw [hl]
  simp only [hp, httl]

/-- **C6 amended**: at dequeue, a message whose `ttlSeconds` is a positive
value and whose age strictly exceeds it is routed to the dead-letter sink and
⊥ is returned; otherwise — no TTL, `ttlSeconds = 0`, or age ≤ TTL — the
message itself is returned.  So `ttlSeconds = 0` behaves as "no TTL", not as
"expired immediately on dequeue". -/
theorem consume_ttl_C6_amended (st : MQState) (t : String) (now : Nat)
    (q : List Entry) (e : Entry) (rest : List Entry)
    (hl : lookupTopic st t = some q) (hp : popMin q = some (e, rest)) :
    (∀ ttl : Nat, e.msg.ttl_seconds = some ttl →
      (0 < ttl ∧ (now : Int) - (e.msg.timestamp : Int) > (ttl : Int) →
        consume t now st = (none, pushDLQ (setTopic st t rest) e.msg)) ∧
      (ttl = 0 ∨ (now : Int) - (e.msg.timestamp : Int) ≤ (ttl : Int) →
        consume t now st = (some e.msg, setTopic st t rest))) ∧
    (e.msg.ttl_seconds = none →
      consume t now st = (some e.msg, setTopic st t rest)) := by
  constructor
  · intro ttl httl
    have hc := consume_char_some st t now q e rest ttl hl hp httl
    constructor
    · rintro ⟨h1, h2⟩
      rw [hc, if_pos ⟨by omega, h2⟩]
    · intro hle
      rw [hc, if_neg]
      rintro ⟨hne, hgt⟩
      rcases hle with h0 | hle
      · exact hne h0
      · omega
  · intro httl
    exact consume_char_none st t now q e rest hl hp httl

/-- The publish request used by the C6 witness: positive TTL of one second. -/
def ttlOneReq : PublishReq :=
  { payload := [("k", "v")], topic := "x", priority := .NORMAL,
    ttl_seconds := some 1, id := 2, now := 0 }

def ttlOneState : MQState := (publish ttlOneReq mqInit).2

/-- Witness for the amended C6: a message with TTL 1 consumed at age 5 is
dead-lettered and `consume` returns ⊥. -/
theorem consume_ttl_C6_amended_witness :
    lookupTopic ttlOneState "x" = some [entryOf (mkMessage ttlOneReq)] ∧
    popMin [entryOf (mkMessage ttlOneReq)] = some (entryOf (mkMessage ttlOneReq), []) ∧
    consume "x" 5 ttlOneState
      = (none, pushDLQ (setTopic ttlOneState "x" []) (mkMessage ttlOneReq)) := by
  refine ⟨rfl, rfl, ?_⟩
  exact ((consume_ttl_C6_amended ttlOneState "x" 5 [entryOf (mkMessage ttlOneReq)]
    (entryOf (mkMessage ttlOneReq)) [] rfl rfl).1 1 rfl).1 ⟨by decide, by decide⟩

/-! ## Event sourcing (src/memory/event_sourcing.py) -/

inductive EventType
  | MEMORY_WRITE
  | MEMORY_READ
  | MEMORY_DELETE
  | MEMORY_UPDATE
  | CACHE_HIT
  | CACHE_MISS
  | CACHE_EVICT
deriving DecidableEq

/-- A Python value as stored under `data['value']`: either an opaque scalar or
a flat dict (the fold function only cares whether both sides are dicts). -/
inductive PyVal
  | prim : Int → PyVal
  | dict : List (String × Int) → PyVal
deriving DecidableEq

/-- Event metadata: the projection of the metadata dict to the keys the
kernel reads (`user_id`, `can_delete`, `contains_pii`, `data_type`); `none`
means the key is absent. -/
structure EventMeta where
  user_id : Option String
  can_delete : Option Bool
  contains_pii : Option Bool
  data_type : Option String
deriving DecidableEq

structure Event where
  id : String
  timestamp : Nat
  type : EventType
  aggregate_id : String
  data : List (String × PyVal)
  actor : String
  metadata : EventMeta
deriving DecidableEq

structure AggregateState where
  aggregate_id : String
  events : List Event
  current_value : Option PyVal
  version : Nat
deriving DecidableEq

/-- Generic string-keyed association update (Python dict assignment). -/
def setAssoc {α : Type} (l : List (String × α)) (k : String) (v : α) :
    List (String × α) :=
  if (l.find? (fun p => p.1 == k)).isSome then
    l.map (fun p => if p.1 == k then (k, v) else p)
  else l ++ [(k, v)]

def lookupAssoc {α : Type} (l : List (String × α)) (k : String) : Option α :=
  (l.find? (fun p => p.1 == k)).map (·.2)

theorem lookupAssoc_setAssoc {α : Type} (l : List (String × α)) (k k' : String)
    (v : α) :
    lookupAssoc (setAssoc l k v) k' = if k = k' then some v else lookupAssoc l k' := by
  unfold lookupAssoc setAssoc
  by_cases hpresent : (l.find? (fun p => p.1 == k)).isSome
  · rw [if_pos hpresent, List.find?_map]
    by_cases hkk : k = k'
    · subst hkk
      have hcomp : ((fun p : String × α => p.1 == k) ∘
          (fun p => if p.1 == k then (k, v) else p))
          = (fun p : String × α => p.1 == k) := by
        funext x
        by_cases hx : x.1 = k <;> simp [Function.comp, hx]
      rw [hcomp]
      cases hfind : l.find? (fun p => p.1 == k) with
      | none => rw [hfind] at hpresent; simp at hpresent
      | some w =>
        have hw : w.1 = k := by simpa using List.find?_some hfind
        simp [hw]
    · have hcomp : ((fun p : String × α => p.1 == k') ∘
          (fun p => if p.1 == k then (k, v) else p))
          = (fun p : String × α => p.1 == k') := by
        funext x
        by_cases hx : x.1 = k
        · simp [Function.comp, hx, hkk]
        · simp [Function.comp, hx]
      rw [hcomp]
      cases hfind : l.find? (fun p => p.1 == k') with
      | none => simp [hkk]
      | some w =>
        have hw : w.1 = k' := by simpa using List.find?_some hfind
        have hwk : ¬ w.1 = k := by rw [hw]; exact fun hc => hkk hc.symm
        simp [hkk, hwk]
  · rw [if_neg hpresent]
    rw [List.find?_append]
    by_cases hkk : k = k'
    · subst hkk
      have hnone : l.find? (fun p => p.1 == k) = none := by
        cases hfind : l.find? (fun p => p.1 == k) with
        | none => rfl
        | some w => rw [hfind] at hpresent; simp at hpresent
      rw [hnone]
      simp [List.find?]
    · have hf2 : (([(k, v)] : List (String × α)).find?
          (fun p => p.1 == k')) = none := by
        have hb : (k == k') = false := by simp [hkk]
        simp [List.find?, hb]
      rw [hf2]
      simp [hkk]

/-- `data.get('value')`. -/
def dataValue (e : Event) : Option PyVal :=
  (e.data.find? (fun p => p.1 == "value")).map (·.2)

def dictSet (d : List (String × Int)) (k : String) (v : Int) : List (String × Int) :=
  setAssoc d k v

/-- Python `old.update(new)`: right-biased shallow merge. -/
def dictUpdate (dOld dNew : List (String × Int)) : List (String × Int) :=
  dNew.foldl (fun acc kv => dictSet acc kv.1 kv.2) dOld

/-- The value component of `EventStore.apply_event`: WRITE sets, UPDATE
merges when both sides are dicts and replaces otherwise, DELETE clears, and
any other type sets the value only when `data` has a `value` key. -/
def applyValue (cur : Option PyVal) (e : Event) : Option PyVal :=
  match e.type with
  | .MEMORY_WRITE => dataValue e
  | .MEMORY_UPDATE =>
    match cur, dataValue e with
    | some (.dict dOld), some (.dict dNew) => some (.dict (dictUpdate dOld dNew))
    | _, _ => dataValue e
  | .MEMORY_DELETE => none
  | _ =>
    match dataValue e with
    | some v => some v
    | none => cur

/-- `EventStore.apply_event`: append the event, bump the version, and fold the
value according to the event type. -/
def apply_event (st : AggregateState) (e : Event) : AggregateState :=
  { st with events := st.events ++ [e], version := st.version + 1,
            current_value := applyValue st.current_value e }

structure EventStore where
  events : List Event
  event_streams : List (String × List Event)
  snapshots : List (String × AggregateState)
deriving DecidableEq

def esInit : EventStore := { events := [], event_streams := [], snapshots := [] }

/-- `self.event_streams[aggregate_id]` (a `defaultdict(list)`). -/
def streamOf (s : EventStore) (agg : String) : List Event :=
  (lookupAssoc s.event_streams agg).getD []

def emptyAgg (agg : String) : AggregateState :=
  { aggregate_id := agg, events := [], current_value := none, version := 0 }

/-- Folding a list of events from the empty aggregate state. -/
def foldAgg (agg : String) (l : List Event) : AggregateState :=
  l.foldl apply_event (emptyAgg agg)

/-- `EventStore.replay_events`.  The snapshot, when present, is the starting
fold point; Python then mutates that very object through `apply_event`, so the
entry in `self.snapshots` ends up equal to the returned state — the model
returns the updated store alongside the state. -/
def replay_events (s : EventStore) (agg : String) : AggregateState × EventStore :=
  let events : List Event := streamOf s agg
  match lookupAssoc s.snapshots agg with
  | some snap =>
    let recent : List Event :=
      match snap.events.getLast? with
      | some lastE => events.filter (fun e => decide (lastE.timestamp < e.timestamp))
      | none => events
    let st := recent.foldl apply_event snap
    (st, { s with snapshots := setAssoc s.snapshots agg st })
  | none => ((streamOf s agg).foldl apply_event (emptyAgg agg), s)

/-- `EventStore.create_snapshot`. -/
def create_snapshot (s : EventStore) (agg : String) : EventStore :=
  let res := replay_events s agg
  { res.2 with snapshots := setAssoc res.2.snapshots agg res.1 }

/-- The first half of `EventStore.append`: record the event in the global
list and in its aggregate's stream. -/
def extendStream (s : EventStore) (e : Event) : EventStore :=
  { s with events := s.events ++ [e],
           event_streams := setAssoc s.event_streams e.aggregate_id
             (streamOf s e.aggregate_id ++ [e]) }

/-- `EventStore.append`: record the event, then snapshot when the stream
length is a multiple of 100. -/
def appendES (e : Event) (s : EventStore) : EventStore :=
  let s1 := extendStream s e
  if (streamOf s1 e.aggregate_id).length % 100 == 0 then
    create_snapshot s1 e.aggregate_id
  else s1

/-- `EventStore.get_state_at`: fold all events with `timestamp ≤ t`. -/
def get_state_at (s : EventStore) (agg : String) (t : Nat) : AggregateState :=
  ((streamOf s agg).filter (fun e => decide (e.timestamp ≤ t))).foldl
    apply_event (emptyAgg agg)

/-- Store-level operations for claim C2: appends and replay calls in any
interleaving. -/
inductive ESOp
  | append (e : Event)
  | replay (agg : String)
deriving DecidableEq

def stepES (s : EventStore) : ESOp → EventStore
  | .append e => appendES e s
  | .replay agg => (replay_events s agg).2

def runES (ops : List ESOp) (s : EventStore) : EventStore := ops.foldl stepES s

/-- The events appended for aggregate `agg` over the trace, in order. -/
def appendsFor (agg : String) (ops : List ESOp) : List Event :=
  ops.filterMap (fun op =>
    match op with
    | .append e => if e.aggregate_id == agg then (some e : Option Event) else none
    | .replay _ => none)

/-- A MEMORY_WRITE event with the given id, timestamp, aggregate and value. -/
def writeEv (i ts : Nat) (agg : String) (v : Int) : Event :=
  { id := toString i, timestamp := ts, type := .MEMORY_WRITE,
    aggregate_id := agg, data := [("value", .prim v)], actor := "actor",
    metadata := { user_id := none, can_delete := none, contains_pii := none,
                  data_type := none } }

/-! ### Fold and ordering lemmas for the event store -/

theorem foldl_apply_events (l : List Event) :
    ∀ st : AggregateState, (l.foldl apply_event st).events = st.events ++ l := by
  induction l with
  | nil => intro st; simp
  | cons e l ih =>
    intro st
    rw [List.foldl_cons, ih]
    rw [show (apply_event st e).events = st.events ++ [e] from rfl]
    simp

theorem foldl_apply_version (l : List Event) :
    ∀ st : AggregateState, (l.foldl apply_event st).version = st.version + l.length := by
  induction l with
  | nil => intro st; simp
  | cons e l ih =>
    intro st
    rw [List.foldl_cons, ih]
    rw [show (apply_event st e).version = st.version + 1 from rfl]
    simp only [List.length_cons]
    omega

theorem foldAgg_events (agg : String) (l : List Event) :
    (foldAgg agg l).events = l := by
  unfold foldAgg
  rw [foldl_apply_events]
  rfl

theorem foldAgg_version (agg : String) (l : List Event) :
    (foldAgg agg l).version = l.length := by
  unfold foldAgg
  rw [foldl_apply_version]
  simp [emptyAgg]

/-- Strict timestamp order on events. -/
def tsLT (a b : Event) : Prop := a.timestamp < b.timestamp

instance (a b : Event) : Decidable (tsLT a b) := by
  unfold tsLT; infer_instance

theorem pairwise_lt_getLast : ∀ {l : List Event} {a : Event},
    l.Pairwise tsLT → l.getLast? = some a →
    ∀ x ∈ l, x = a ∨ x.timestamp < a.timestamp := by
  intro l
  induction l with
  | nil => intro a _ h; simp at h
  | cons b l ih =>
    intro a hp hl x hx
    cases l with
    | nil =>
      have hba : b = a := by simpa using hl
      subst hba
      have : x = b := by simpa using hx
      left; exact this
    | cons c l2 =>
      rw [List.getLast?_cons_cons] at hl
      have hbc : ∀ y ∈ c :: l2, tsLT b y := (List.pairwise_cons.mp hp).1
      rcases List.mem_cons.mp hx with rfl | hx2
      · right
        exact hbc a (List.mem_of_getLast?_eq_some hl)
      · exact ih (List.pairwise_cons.mp hp).2 hl x hx2

theorem filter_gt_last {l1 l2 : List Event} {lastE : Event}
    (hlast : l1.getLast? = some lastE)
    (hsorted : (l1 ++ l2).Pairwise tsLT) :
    (l1 ++ l2).filter (fun e => decide (lastE.timestamp < e.timestamp)) = l2 := by
  obtain ⟨hp1, hp2, hcross⟩ := List.pairwise_append.mp hsorted
  rw [List.filter_append]
  have h1 : l1.filter (fun e => decide (lastE.timestamp < e.timestamp)) = [] := by
    rw [List.filter_eq_nil_iff]
    intro x hx
    rcases pairwise_lt_getLast hp1 hlast x hx with rfl | hlt
    · simp
    · simp only [decide_eq_true_eq]
      omega
  have h2 : l2.filter (fun e => decide (lastE.timestamp < e.timestamp)) = l2 := by
    rw [List.filter_eq_self]
    intro x hx
    have hc := hcross lastE (List.mem_of_getLast?_eq_some hlast) x hx
    unfold tsLT at hc
    simpa using hc
  rw [h1, h2, List.nil_append]

theorem take_append_left {α : Type} : ∀ (l1 l2 : List α) (k : Nat),
    k ≤ l1.length → (l1 ++ l2).take k = l1.take k := by
  intro l1
  induction l1 with
  | nil =>
    intro l2 k hk
    have : k = 0 := Nat.le_zero.mp (by simpa using hk)
    subst this
    simp
  | cons a l1 ih =>
    intro l2 k hk
    cases k with
    | zero => simp
    | succ k =>
      simp only [List.cons_append, List.take_succ_cons]
      rw [ih l2 k (by simpa using hk)]

/-! ### The snapshot invariant and the replay characterisation -/

/-- Every stored snapshot is the fold of a nonempty prefix of its aggregate's
stream. -/
def SnapInv (s : EventStore) : Prop :=
  ∀ agg snap, lookupAssoc s.snapshots agg = some snap →
    ∃ k, 1 ≤ k ∧ k ≤ (streamOf s agg).length ∧
      snap = foldAgg agg ((streamOf s agg).take k)

theorem replay_events_eq (s : EventStore) (agg : String) (hinv : SnapInv s)
    (hmono : (streamOf s agg).Pairwise tsLT) :
    replay_events s agg =
      (foldAgg agg (streamOf s agg),
       (match lookupAssoc s.snapshots agg with
        | some _ =>
          { s with snapshots := setAssoc s.snapshots agg (foldAgg agg (streamOf s agg)) }
        | none => s)) := by
  unfold replay_events
  cases hsnap : lookupAssoc s.snapshots agg with
  | none => rfl
  | some snap =>
    obtain ⟨k, hk1, hk2, hsnapeq⟩ := hinv agg snap hsnap
    have hse : snap.events = (streamOf s agg).take k := by
      rw [hsnapeq, foldAgg_events]
    have htake_len : ((streamOf s agg).take k).length = k := by
      rw [List.length_take]
      omega
    have hne : (streamOf s agg).take k ≠ [] := by
      intro hcon
      rw [hcon] at htake_len
      simp at htake_len
      omega
    obtain ⟨lastE, hlastE⟩ : ∃ a, ((streamOf s agg).take k).getLast? = some a := by
      cases hgl : ((streamOf s agg).take k).getLast? with
      | none => exact absurd (List.getLast?_eq_none_iff.mp hgl) hne
      | some a => exact ⟨a, rfl⟩
    have hsplit : (streamOf s agg).take k ++ (streamOf s agg).drop k = streamOf s agg :=
      List.take_append_drop k _
    have hfilter : (streamOf s agg).filter
        (fun e => decide (lastE.timestamp < e.timestamp)) = (streamOf s agg).drop k := by
      conv_lhs => rw [← hsplit]
      exact filter_gt_last hlastE (by rw [hsplit]; exact hmono)
    have hfold : ((streamOf s agg).drop k).foldl apply_event
        (foldAgg agg ((streamOf s agg).take k)) = foldAgg agg (streamOf s agg) := by
      unfold foldAgg
      rw [← List.foldl_append, hsplit]
    dsimp only
    rw [hse, hlastE]
    dsimp only
    rw [hfilter, hsnapeq, hfold]

theorem replay_snd_events (s : EventStore) (agg : String) :
    (replay_events s agg).2.events = s.events := by
  unfold replay_events
  cases lookupAssoc s.snapshots agg <;> rfl

theorem replay_snd_streams (s : EventStore) (agg : String) :
    (replay_events s agg).2.event_streams = s.event_streams := by
  unfold replay_events
  cases lookupAssoc s.snapshots agg <;> rfl

theorem create_snapshot_streams (s : EventStore) (agg : String) :
    (create_snapshot s agg).event_streams = s.event_streams := by
  show (replay_events s agg).2.event_streams = s.event_streams
  exact replay_snd_streams s agg

theorem snapshots_extend (s : EventStore) (e : Event) :
    (extendStream s e).snapshots = s.snapshots := rfl

theorem streamOf_extend (s : EventStore) (e : Event) (agg : String) :
    streamOf (extendStream s e) agg =
      if e.aggregate_id = agg then streamOf s agg ++ [e] else streamOf s agg := by
  unfold streamOf extendStream
  dsimp only
  rw [lookupAssoc_setAssoc]
  by_cases hag : e.aggregate_id = agg
  · rw [if_pos hag, if_pos hag, hag]
    rfl
  · rw [if_neg hag, if_neg hag]

theorem snapInv_extend {s : EventStore} (e : Event) (hinv : SnapInv s) :
    SnapInv (extendStream s e) := by
  intro agg snap hsnap
  rw [snapshots_extend] at hsnap
  obtain ⟨k, hk1, hk2, heq⟩ := hinv agg snap hsnap
  rw [streamOf_extend]
  by_cases hag : e.aggregate_id = agg
  · rw [if_pos hag]
    refine ⟨k, hk1, ?_, ?_⟩
    · simp only [List.length_append, List.length_cons, List.length_nil]
      omega
    · rw [take_append_left _ _ k hk2]
      exact heq
  · rw [if_neg hag]
    exact ⟨k, hk1, hk2, heq⟩

theorem snapInv_create {s : EventStore} (agg0 : String) (hinv : SnapInv s)
    (hmono : (streamOf s agg0).Pairwise tsLT)
    (hne : streamOf s agg0 ≠ []) : SnapInv (create_snapshot s agg0) := by
  have hlen : 1 ≤ (streamOf s agg0).length := by
    cases hl : streamOf s agg0 with
    | nil => exact absurd hl hne
    | cons x xs => simp
  unfold create_snapshot
  rw [replay_events_eq s agg0 hinv hmono]
  dsimp only
  cases hsnap : lookupAssoc s.snapshots agg0 with
  | none =>
    intro agg snap hsnaplook
    dsimp only at hsnaplook
    rw [lookupAssoc_setAssoc] at hsnaplook
    by_cases hag : agg0 = agg
    · subst hag
      rw [if_pos rfl] at hsnaplook
      have hsnapeq : snap = foldAgg agg0 (streamOf s agg0) :=
        (Option.some.injEq _ _ ▸ hsnaplook).symm
      show ∃ k, 1 ≤ k ∧ k ≤ (streamOf s agg0).length ∧
        snap = foldAgg agg0 ((streamOf s agg0).take k)
      exact ⟨(streamOf s agg0).length, hlen, le_refl _, by rw [List.take_length]; exact hsnapeq⟩
    · rw [if_neg hag] at hsnaplook
      exact hinv agg snap hsnaplook
  | some snap0 =>
    intro agg snap hsnaplook
    dsimp only at hsnaplook
    rw [lookupAssoc_setAssoc] at hsnaplook
    by_cases hag : agg0 = agg
    · subst hag
      rw [if_pos rfl] at hsnaplook
      have hsnapeq : snap = foldAgg agg0 (streamOf s agg0) :=
        (Option.some.injEq _ _ ▸ hsnaplook).symm
      show ∃ k, 1 ≤ k ∧ k ≤ (streamOf s agg0).length ∧
        snap = foldAgg agg0 ((streamOf s agg0).take k)
      exact ⟨(streamOf s agg0).length, hlen, le_refl _, by rw [List.take_length]; exact hsnapeq⟩
    · rw [if_neg hag, lookupAssoc_setAssoc, if_neg hag] at hsnaplook
      exact hinv agg snap hsnaplook

theorem appendES_inv {s : EventStore} (e : Event) (hinv : SnapInv s)
    (hmono' : (streamOf s e.aggregate_id ++ [e]).Pairwise tsLT) :
    SnapInv (appendES e s) := by
  unfold appendES
  dsimp only
  have h1 : SnapInv (extendStream s e) := snapInv_extend e hinv
  have hs : streamOf (extendStream s e) e.aggregate_id
      = streamOf s e.aggregate_id ++ [e] := by
    rw [streamOf_extend, if_pos rfl]
  split
  · have h2 : (streamOf (extendStream s e) e.aggregate_id).Pairwise tsLT := by
      rw [hs]; exact hmono'
    have h3 : streamOf (extendStream s e) e.aggregate_id ≠ [] := by
      rw [hs]; simp
    exact snapInv_create e.aggregate_id h1 h2 h3
  · exact h1

theorem streamOf_appendES (e : Event) (s : EventStore) (agg : String) :
    streamOf (appendES e s) agg =
      if e.aggregate_id = agg then streamOf s agg ++ [e] else streamOf s agg := by
  unfold appendES
  dsimp only
  split
  · have hcs := create_snapshot_streams (extendStream s e) e.aggregate_id
    have h2 := streamOf_extend s e agg
    unfold streamOf at h2 ⊢
    rw [hcs]
    exact h2
  · exact streamOf_extend s e agg

theorem replay_inv {s : EventStore} (agg0 : String) (hinv : SnapInv s)
    (hmono0 : (streamOf s agg0).Pairwise tsLT) :
    SnapInv (replay_events s agg0).2 := by
  rw [replay_events_eq s agg0 hinv hmono0]
  dsimp only
  cases hsnap : lookupAssoc s.snapshots agg0 with
  | none => exact hinv
  | some snap0 =>
    intro agg snap hsnaplook
    dsimp only at hsnaplook
    rw [lookupAssoc_setAssoc] at hsnaplook
    by_cases hag : agg0 = agg
    · subst hag
      rw [if_pos rfl] at hsnaplook
      have hsnapeq : snap = foldAgg agg0 (streamOf s agg0) :=
        (Option.some.injEq _ _ ▸ hsnaplook).symm
      obtain ⟨k0, hk01, hk02, _⟩ := hinv agg0 snap0 hsnap
      show ∃ k, 1 ≤ k ∧ k ≤ (streamOf s agg0).length ∧
        snap = foldAgg agg0 ((streamOf s agg0).take k)
      exact ⟨(streamOf s agg0).length, by omega, le_refl _,
        by rw [List.take_length]; exact hsnapeq⟩
    · rw [if_neg hag] at hsnaplook
      exact hinv agg snap hsnaplook

theorem appendsFor_cons_append (agg : String) (e : Event) (rest : List ESOp) :
    appendsFor agg (.append e :: rest)
      = (if e.aggregate_id = agg then [e] else []) ++ appendsFor agg rest := by
  unfold appendsFor
  rw [List.filterMap_cons]
  by_cases hag : e.aggregate_id = agg
  · simp [hag]
  · simp [hag]

theorem appendsFor_cons_replay (agg a0 : String) (rest : List ESOp) :
    appendsFor agg (.replay a0 :: rest) = appendsFor agg rest := rfl

theorem runES_spec (ops : List ESOp) : ∀ s : EventStore, SnapInv s →
    (∀ agg, (streamOf s agg ++ appendsFor agg ops).Pairwise tsLT) →
    SnapInv (runES ops s) ∧
      ∀ agg, streamOf (runES ops s) agg = streamOf s agg ++ appendsFor agg ops := by
  induction ops with
  | nil =>
    intro s hinv _
    refine ⟨hinv, fun agg => ?_⟩
    show streamOf s agg = streamOf s agg ++ appendsFor agg []
    simp [appendsFor]
  | cons op rest ih =>
    intro s hinv hmono
    cases op with
    | append e =>
      have hm1 : (streamOf s e.aggregate_id ++ [e]).Pairwise tsLT := by
        have hall := hmono e.aggregate_id
        rw [appendsFor_cons_append, if_pos rfl] at hall
        refine hall.sublist ?_
        rw [show streamOf s e.aggregate_id ++ ([e] ++ appendsFor e.aggregate_id rest)
            = (streamOf s e.aggregate_id ++ [e]) ++ appendsFor e.aggregate_id rest by
          rw [List.append_assoc]]
        exact List.sublist_append_left _ _
      have hinv' : SnapInv (appendES e s) := appendES_inv e hinv hm1
      have hmono' : ∀ agg,
          (streamOf (appendES e s) agg ++ appendsFor agg rest).Pairwise tsLT := by
        intro agg
        rw [streamOf_appendES]
        by_cases hag : e.aggregate_id = agg
        · rw [if_pos hag]
          have hall := hmono agg
          rw [appendsFor_cons_append, if_pos hag] at hall
          rw [List.append_assoc]
          exact hall
        · rw [if_neg hag]
          have hall := hmono agg
          rw [appendsFor_cons_append, if_neg hag] at hall
          simpa using hall
      obtain ⟨hia, hsa⟩ := ih (appendES e s) hinv' hmono'
      refine ⟨hia, fun agg => ?_⟩
      show streamOf (runES rest (appendES e s)) agg = _
      rw [hsa agg, streamOf_appendES, appendsFor_cons_append]
      by_cases hag : e.aggregate_id = agg
      · rw [if_pos hag, if_pos hag, List.append_assoc]
      · rw [if_neg hag, if_neg hag, List.nil_append]
    | replay agg0 =>
      have hm0 : (streamOf s agg0).Pairwise tsLT :=
        (hmono agg0).sublist (List.sublist_append_left _ _)
      have hinv' : SnapInv (replay_events s agg0).2 := replay_inv agg0 hinv hm0
      have hstreams0 : ∀ agg, streamOf (replay_events s agg0).2 agg = streamOf s agg := by
        intro agg
        unfold streamOf
        rw [replay_snd_streams]
      have hmono' : ∀ agg,
          (streamOf (replay_events s agg0).2 agg ++ appendsFor agg rest).Pairwise tsLT := by
        intro agg
        rw [hstreams0]
        exact hmono agg
      obtain ⟨hia, hsa⟩ := ih (replay_events s agg0).2 hinv' hmono'
      refine ⟨hia, fun agg => ?_⟩
      show streamOf (runES rest (replay_events s agg0).2) agg = _
      rw [hsa agg, hstreams0 agg]
      rfl

/-- **C2 amended**: over any interleaving of `append`s and `replayEvents`
calls starting from the empty store, provided each aggregate's appended
events carry strictly increasing timestamps, `replayEvents(A)` equals
`getStateAt(A, en.timestamp)` where `en` is the last event appended for `A`,
and its version is `n` — regardless of how many snapshots were created along
the way (one per 100 appends) and how many times `replayEvents` was already
called. -/
theorem replay_eq_getStateAt_C2_amended (ops : List ESOp) (agg : String)
    (lastE : Event)
    (hmono : ∀ a, (appendsFor a ops).Pairwise tsLT)
    (hlast : (appendsFor agg ops).getLast? = some lastE) :
    (replay_events (runES ops esInit) agg).1
        = get_state_at (runES ops esInit) agg lastE.timestamp ∧
      (replay_events (runES ops esInit) agg).1.version
        = (appendsFor agg ops).length := by
  obtain ⟨hinv, hstr⟩ := runES_spec ops esInit
    (by intro a snap h; exact absurd h (by simp [esInit, lookupAssoc, List.find?]))
    (by
      intro a
      have h0 : streamOf esInit a = [] := rfl
      rw [h0, List.nil_append]
      exact hmono a)
  have hstream : streamOf (runES ops esInit) agg = appendsFor agg ops := by
    have h := hstr agg
    rwa [show streamOf esInit agg = [] from rfl, List.nil_append] at h
  have hmonoS : (streamOf (runES ops esInit) agg).Pairwise tsLT := by
    rw [hstream]; exact hmono agg
  have hfst : (replay_events (runES ops esInit) agg).1
      = foldAgg agg (appendsFor agg ops) := by
    rw [replay_events_eq _ agg hinv hmonoS]
    dsimp only
    rw [hstream]
  have hfilter : (streamOf (runES ops esInit) agg).filter
      (fun e => decide (e.timestamp ≤ lastE.timestamp)) = appendsFor agg ops := by
    rw [hstream, List.filter_eq_self]
    intro x hx
    rcases pairwise_lt_getLast (hmono agg) hlast x hx with rfl | hlt
    · simp
    · simp only [decide_eq_true_eq]
      omega
  constructor
  · rw [hfst]
    unfold get_state_at
    rw [hfilter]
    rfl
  · rw [hfst, foldAgg_version]

theorem appendsFor_eq_nil (a : String) (ops : List ESOp)
    (h : ∀ e : Event, ESOp.append e ∈ ops → ¬ e.aggregate_id = a) :
    appendsFor a ops = [] := by
  unfold appendsFor
  rw [List.filterMap_eq_nil_iff]
  intro op hop
  cases op with
  | append e => simp [h e hop]
  | replay a0 => rfl

/-- The trace used by the C2 witness: three appends for aggregate `a` with
increasing timestamps, one for `b`, and `replayEvents` calls interleaved. -/
def c2WitnessOps : List ESOp :=
  [.append (writeEv 1 1 "a" 5), .replay "a", .append (writeEv 2 2 "a" 6),
   .append (writeEv 3 1 "b" 7), .append (writeEv 4 3 "a" 8), .replay "b"]

/-- Witness for the amended C2: on the concrete trace, replay equals
time-travel to the last timestamp and the version is 3. -/
theorem replay_eq_getStateAt_C2_amended_witness :
    (appendsFor "a" c2WitnessOps).getLast? = some (writeEv 4 3 "a" 8) ∧
      (replay_events (runES c2WitnessOps esInit) "a").1
        = get_state_at (runES c2WitnessOps esInit) "a" (writeEv 4 3 "a" 8).timestamp ∧
      (replay_events (runES c2WitnessOps esInit) "a").1.version
        = (appendsFor "a" c2WitnessOps).length := by
  have hm : ∀ a, (appendsFor a c2WitnessOps).Pairwise tsLT := by
    intro a
    by_cases h1 : a = "a"
    · subst h1; decide
    · by_cases h2 : a = "b"
      · subst h2; decide
      · rw [appendsFor_eq_nil a c2WitnessOps ?_]
        · exact List.Pairwise.nil
        · intro e he
          have : e.aggregate_id = "a" ∨ e.aggregate_id = "b" := by
            simp only [c2WitnessOps, List.mem_cons, List.not_mem_nil, or_false] at he
            rcases he with h | h | h | h | h | h
            · cases h; left; rfl
            · cases h
            · cases h; left; rfl
            · cases h; right; rfl
            · cases h; left; rfl
            · cases h
          rcases this with h | h
          · rw [h]; exact fun hc => h1 hc.symm
          · rw [h]; exact fun hc => h2 hc.symm
  have h := replay_eq_getStateAt_C2_amended c2WitnessOps "a" (writeEv 4 3 "a" 8) hm rfl
  exact ⟨rfl, h.1, h.2⟩

/-- **C2 counterexample**: append `e1` with timestamp 1 and then `e2` with
timestamp 0 to aggregate `a`.  The last appended event is `e2` with timestamp
0, yet `getStateAt(a, 0)` folds only `e2` (version 1) while `replayEvents(a)`
folds both events (version 2) — the claimed equality fails when timestamps are
not increasing. -/
theorem replay_getStateAt_counterexample_C2 :
    (appendsFor "a" [.append (writeEv 1 1 "a" 10), .append (writeEv 2 0 "a" 20)]).getLast?
        = some (writeEv 2 0 "a" 20) ∧
      (replay_events (runES [.append (writeEv 1 1 "a" 10),
          .append (writeEv 2 0 "a" 20)] esInit) "a").1.version = 2 ∧
      (get_state_at (runES [.append (writeEv 1 1 "a" 10),
          .append (writeEv 2 0 "a" 20)] esInit) "a"
          (writeEv 2 0 "a" 20).timestamp).version = 1 := by
  refine ⟨rfl, rfl, rfl⟩

/-! ## Audit trail and retention (src/memory/audit_trail.py)

`hashField` stands for the map `v ↦ sha256(str(v))[:16]` applied to PII
fields and `hashActor` for `hash_identifier` on the actor; both are abstract
here — no claim depends on the hash contents. -/

def piiFields : List String := ["name", "email", "phone", "address", "ssn"]

/-- `AuditTrail.anonymize_data`: replace each present PII field. -/
def anonymize_data (hashField : PyVal → PyVal) (d : List (String × PyVal)) :
    List (String × PyVal) :=
  piiFields.foldl
    (fun acc f =>
      if (acc.find? (fun p => p.1 == f)).isSome then
        acc.map (fun p => if p.1 == f then (f, hashField p.2) else p)
      else acc)
    d

/-- The in-place anonymisation of one event (`event.data = ...;
event.actor = ...`): data fields hashed, actor hashed, metadata untouched. -/
def anonEvent (hashField : PyVal → PyVal) (hashActor : String → String)
    (e : Event) : Event :=
  { e with data := anonymize_data hashField e.data, actor := hashActor e.actor }

/-- `AuditTrail.anonymize_or_delete`: anonymise in place when
`metadata.contains_pii` (default false) is true; otherwise remove the event
from the global list and from its aggregate's stream (Python's
`list.remove` drops the first value-equal occurrence). -/
def anonymize_or_delete (hashField : PyVal → PyVal) (hashActor : String → String)
    (s : EventStore) (e : Event) : EventStore :=
  if e.metadata.contains_pii.getD false then
    { s with
      events := s.events.map (fun x => if x = e then anonEvent hashField hashActor e else x),
      event_streams := s.event_streams.map
        (fun p => (p.1, p.2.map (fun x => if x = e then anonEvent hashField hashActor e else x))) }
  else
    { s with
      events := s.events.erase e,
      event_streams := s.event_streams.map
        (fun p => if p.1 == e.aggregate_id then (p.1, p.2.erase e) else p) }

/-- The per-class retention period in seconds:
`retention_policies.get(metadata.get('data_type', 'system_logs'),
timedelta(days=90))`. -/
def retentionOf (e : Event) : Nat :=
  let dt := e.metadata.data_type.getD "system_logs"
  if dt = "gdpr_personal_data" then 365 * 86400
  else if dt = "system_logs" then 90 * 86400
  else if dt = "research_data" then 1825 * 86400
  else 90 * 86400

/-- One iteration of the retention sweep. -/
def sweepOne (now : Nat) (hashField : PyVal → PyVal) (hashActor : String → String)
    (s : EventStore) (e : Event) : EventStore :=
  if (now : Int) - (e.timestamp : Int) > (retentionOf e : Int) then
    anonymize_or_delete hashField hashActor s e
  else s

/-- `AuditTrail.apply_retention_policy`: iterate over a copy of the event
list, deleting or anonymising each expired event. -/
def applyRetention (now : Nat) (hashField : PyVal → PyVal)
    (hashActor : String → String) (s : EventStore) : EventStore :=
  s.events.foldl (fun acc e => sweepOne now hashField hashActor acc e) s

/-- What the sweep does to one event, as a partial map. -/
def sweepEvent (now : Nat) (hashField : PyVal → PyVal) (hashActor : String → String)
    (e : Event) : Option Event :=
  if (now : Int) - (e.timestamp : Int) > (retentionOf e : Int) then
    (if e.metadata.contains_pii.getD false then some (anonEvent hashField hashActor e)
     else none)
  else some e

theorem anonEvent_id (hashField : PyVal → PyVal) (hashActor : String → String)
    (e : Event) : (anonEvent hashField hashActor e).id = e.id := rfl

theorem count_map_replace_of_ne (l : List Event) (e a x : Event)
    (hxe : x ≠ e) (hxa : x ≠ a) :
    (l.map (fun y => if y = e then a else y)).count x = l.count x := by
  induction l with
  | nil => rfl
  | cons b l ih =>
    by_cases hbe : b = e
    · subst hbe
      simp only [List.map_cons, eq_self_iff_true, if_true]
      rw [List.count_cons, List.count_cons, ih]
      have h1 : (a == x) = false := by
        rw [beq_eq_false_iff_ne]
        exact fun h => hxa h.symm
      have h2 : (b == x) = false := by
        rw [beq_eq_false_iff_ne]
        exact fun h => hxe h.symm
      rw [h1, h2]
    · simp only [List.map_cons, if_neg hbe]
      rw [List.count_cons, List.count_cons, ih]

theorem map_id_of {α : Type} (f : α → α) (l : List α) (h : ∀ x ∈ l, f x = x) :
    l.map f = l := by
  induction l with
  | nil => rfl
  | cons a l ih =>
    rw [List.map_cons, h a (List.mem_cons_self a l),
      ih (fun x hx => h x (List.mem_cons_of_mem a hx))]

theorem sweepOne_events (now : Nat) (hf : PyVal → PyVal) (ha : String → String)
    (cur : EventStore) (e : Event) :
    (sweepOne now hf ha cur e).events =
      if (now : Int) - (e.timestamp : Int) > (retentionOf e : Int) then
        (if e.metadata.contains_pii.getD false then
          cur.events.map (fun x => if x = e then anonEvent hf ha e else x)
         else cur.events.erase e)
      else cur.events := by
  unfold sweepOne anonymize_or_delete
  by_cases h1 : (now : Int) - (e.timestamp : Int) > (retentionOf e : Int)
  · rw [if_pos h1, if_pos h1]
    by_cases h2 : e.metadata.contains_pii.getD false = true
    · rw [if_pos h2, if_pos h2]
    · rw [if_neg h2, if_neg h2]
  · rw [if_neg h1, if_neg h1]

theorem fold_sweep_events (now : Nat) (hf : PyVal → PyVal) (ha : String → String) :
    ∀ (todo : List Event) (cur : EventStore) (done : List Event),
      cur.events = done ++ todo →
      (cur.events.map (·.id)).Nodup →
      (todo.foldl (fun acc e => sweepOne now hf ha acc e) cur).events
        = done ++ todo.filterMap (sweepEvent now hf ha) := by
  intro todo
  induction todo with
  | nil =>
    intro cur done hcur _
    simpa [List.filterMap_nil] using hcur
  | cons e todo ih =>
    intro cur done hcur hnodup
    have hids : ((done ++ e :: todo).map (·.id)).Nodup := by rw [← hcur]; exact hnodup
    have hsplit := List.nodup_append.mp (by simpa using hids)
    have hdone_ne : ∀ x ∈ done, x ≠ e := by
      intro x hx hxe
      apply hsplit.2.2 (List.mem_map_of_mem _ hx)
      rw [hxe]
      exact List.mem_cons_self _ _
    have htodo_ne : ∀ x ∈ todo, x ≠ e := by
      intro x hx hxe
      have hnd2 : ((e :: todo).map (·.id)).Nodup := hsplit.2.1
      rw [List.map_cons, List.nodup_cons] at hnd2
      exact hnd2.1 (by rw [← hxe]; exact List.mem_map_of_mem _ hx)
    rw [List.foldl_cons]
    by_cases hexp : (now : Int) - (e.timestamp : Int) > (retentionOf e : Int)
    · by_cases hpii : e.metadata.contains_pii.getD false = true
      · have hsw : sweepEvent now hf ha e = some (anonEvent hf ha e) := by
          unfold sweepEvent
          rw [if_pos hexp, if_pos hpii]
        have hev : (sweepOne now hf ha cur e).events
            = done ++ anonEvent hf ha e :: todo := by
          rw [sweepOne_events, if_pos hexp, if_pos hpii, hcur, List.map_append,
            List.map_cons]
          rw [map_id_of _ done (fun x hx => if_neg (hdone_ne x hx)),
            if_pos rfl,
            map_id_of _ todo (fun x hx => if_neg (htodo_ne x hx))]
        have hnodup' : ((sweepOne now hf ha cur e).events.map (·.id)).Nodup := by
          rw [hev]
          have hmapeq : (done ++ anonEvent hf ha e :: todo).map (·.id)
              = (done ++ e :: todo).map (·.id) := by
            simp [List.map_append, List.map_cons, anonEvent_id]
          rw [hmapeq]
          simpa using hids
        have hres := ih (sweepOne now hf ha cur e) (done ++ [anonEvent hf ha e])
          (by rw [hev]; simp) hnodup'
        rw [hres, List.filterMap_cons, hsw]
        simp [List.append_assoc]
      · have hsw : sweepEvent now hf ha e = none := by
          unfold sweepEvent
          rw [if_pos hexp, if_neg hpii]
        have hev : (sweepOne now hf ha cur e).events = done ++ todo := by
          rw [sweepOne_events, if_pos hexp, if_neg hpii, hcur,
            List.erase_append_right _ (fun hc => (hdone_ne e hc) rfl),
            List.erase_cons_head]
        have hnodup' : ((sweepOne now hf ha cur e).events.map (·.id)).Nodup := by
          rw [hev]
          have hsub : List.Sublist (done ++ todo) (done ++ e :: todo) :=
            List.Sublist.append_left (List.sublist_cons_self e todo) done
          exact List.Nodup.sublist (List.Sublist.map _ hsub) (by simpa using hids)
        have hres := ih (sweepOne now hf ha cur e) done hev hnodup'
        rw [hres, List.filterMap_cons, hsw]
    · have hsw : sweepEvent now hf ha e = some e := by
        unfold sweepEvent
        rw [if_neg hexp]
      have hev : (sweepOne now hf ha cur e).events = (done ++ [e]) ++ todo := by
        rw [sweepOne_events, if_neg hexp, hcur]
        simp
      have hnodup' : ((sweepOne now hf ha cur e).events.map (·.id)).Nodup := by
        rw [hev]
        simpa using hids
      have hres := ih (sweepOne now hf ha cur e) (done ++ [e]) hev hnodup'
      rw [hres, List.filterMap_cons, hsw]
      simp [List.append_assoc]

/-- Counterexample event for C8: a `system_logs`-class event (default class)
whose age at sweep time is exactly the 90-day boundary. -/
def boundaryEv : Event :=
  { id := "evt-1", timestamp := 0, type := .MEMORY_WRITE, aggregate_id := "r",
    data := [("value", .prim 1)], actor := "sys",
    metadata := { user_id := none, can_delete := none, contains_pii := none,
                  data_type := none } }

def boundaryStore : EventStore :=
  { events := [boundaryEv], event_streams := [("r", [boundaryEv])], snapshots := [] }

/-- **C8 counterexample**: running the sweep when the event's age equals its
class's retention period exactly (90 days for the default class) leaves the
store unchanged — the code deletes only events strictly older than the
period, while the claim says the boundary event is deleted or anonymised. -/
theorem retention_boundary_counterexample_C8 :
    applyRetention (90 * 86400) (fun v => v) (fun a => a) boundaryStore
        = boundaryStore ∧
      boundaryEv ∈ boundaryStore.events := by
  exact ⟨by decide, List.mem_cons_self _ _⟩

/-- **C8 amended**: when the retention sweep runs, every event whose age
strictly exceeds its class's retention period (365 days for
`gdpr_personal_data`, 90 for `system_logs`, 1825 for `research_data`,
default 90) is deleted or anonymised — anonymised in place when
`metadata.contains_pii` is true, removed otherwise — while every event whose
age is at most the period (in particular exactly at the boundary, or younger
by one second) survives unchanged. -/
theorem retention_C8_amended (now : Nat) (hf : PyVal → PyVal) (ha : String → String)
    (s : EventStore) (hnodup : (s.events.map (·.id)).Nodup) (e : Event)
    (he : e ∈ s.events) :
    ((now : Int) - (e.timestamp : Int) ≤ (retentionOf e : Int) →
      e ∈ (applyRetention now hf ha s).events) ∧
    ((now : Int) - (e.timestamp : Int) > (retentionOf e : Int) →
      (e.metadata.contains_pii.getD false = true →
        anonEvent hf ha e ∈ (applyRetention now hf ha s).events) ∧
      (e.metadata.contains_pii.getD false = false →
        ∀ x ∈ (applyRetention now hf ha s).events, x.id ≠ e.id)) := by
  have hchar : (applyRetention now hf ha s).events
      = s.events.filterMap (sweepEvent now hf ha) :=
    fold_sweep_events now hf ha s.events s [] rfl hnodup
  constructor
  · intro hyoung
    rw [hchar]
    refine List.mem_filterMap.mpr ⟨e, he, ?_⟩
    unfold sweepEvent
    rw [if_neg (by omega)]
  · intro hold
    constructor
    · intro hpii
      rw [hchar]
      refine List.mem_filterMap.mpr ⟨e, he, ?_⟩
      unfold sweepEvent
      rw [if_pos hold, if_pos hpii]
    · intro hnpii x hx hxid
      rw [hchar] at hx
      obtain ⟨y, hy, hsy⟩ := List.mem_filterMap.mp hx
      have hyid : y.id = x.id := by
        unfold sweepEvent at hsy
        by_cases h1 : (now : Int) - (y.timestamp : Int) > (retentionOf y : Int)
        · rw [if_pos h1] at hsy
          by_cases h2 : y.metadata.contains_pii.getD false = true
          · rw [if_pos h2] at hsy
            cases hsy
            rfl
          · rw [if_neg h2] at hsy
            cases hsy
        · rw [if_neg h1] at hsy
          cases hsy
          rfl
      have hye : y = e :=
        List.inj_on_of_nodup_map hnodup hy he (by rw [hyid, hxid])
      subst hye
      unfold sweepEvent at hsy
      rw [if_pos hold, if_neg (by rw [hnpii]; exact Bool.false_ne_true)] at hsy
      cases hsy

/-- Store for the C8 witness: one expired deletable event and one event
exactly at the boundary. -/
def c8Old : Event :=
  { id := "evt-old", timestamp := 0, type := .MEMORY_WRITE, aggregate_id := "r",
    data := [("value", .prim 1)], actor := "sys",
    metadata := { user_id := none, can_delete := none, contains_pii := some false,
                  data_type := some "system_logs" } }

def c8Store : EventStore :=
  { events := [c8Old, boundaryEv], event_streams := [("r", [c8Old, boundaryEv])],
    snapshots := [] }

/-- Witness for the amended C8: sweeping one second past the boundary removes
the expired non-PII event (no event with its id remains). -/
theorem retention_C8_amended_witness :
    ((c8Store.events.map (·.id)).Nodup) ∧ c8Old ∈ c8Store.events ∧
      ((90 * 86400 + 1 : Int) - (c8Old.timestamp : Int) > (retentionOf c8Old : Int)) ∧
      ∀ x ∈ (applyRetention (90 * 86400 + 1) (fun v => v) (fun a => a) c8Store).events,
        x.id ≠ c8Old.id := by
  refine ⟨by decide, List.mem_cons_self _ _, by decide, ?_⟩
  exact ((retention_C8_amended (90 * 86400 + 1) (fun v => v) (fun a => a) c8Store
    (by decide) c8Old (List.mem_cons_self _ _)).2 (by decide)).2 (by decide)

/-! ## Short-term memory tier (src/memory/advanced_memory_manager.py)

`MemoryItem` without the float `relevance_score` field (no claim touches it).
-/

structure MemoryItem where
  key : String
  value : PyVal
  timestamp : Nat
  metadata : EventMeta
deriving DecidableEq

structure ShortTermMemory where
  capacity : Nat
  memory : List (String × MemoryItem)
  access_order : List String
deriving DecidableEq

def stmInit (capacity : Nat) : ShortTermMemory :=
  { capacity := capacity, memory := [], access_order := [] }

/-- `ShortTermMemory()` with the default capacity. -/
def stmDefault : ShortTermMemory := stmInit 1000

/-- A `MemoryItem` as created by `ShortTermMemory.set`: empty metadata. -/
def mkSTItem (key : String) (v : PyVal) (now : Nat) : MemoryItem :=
  { key := key, value := v, timestamp := now,
    metadata := { user_id := none, can_delete := none, contains_pii := none,
                  data_type := none } }

/-- `ShortTermMemory.set`: update in place when the key exists (leaving
`_access_order` untouched); otherwise evict the head of `_access_order` when
at capacity, then append the new entry and its key. -/
def stmSet (st : ShortTermMemory) (key : String) (v : PyVal) (now : Nat) :
    ShortTermMemory :=
  match lookupAssoc st.memory key with
  | some item =>
    let item2 := { item with value := v, timestamp := now }
    { st with memory := setAssoc st.memory key item2 }
  | none =>
    let st1 :=
      if st.capacity ≤ st.memory.length then
        (match st.access_order with
         | oldest :: rest =>
           { st with memory := st.memory.filter (fun p => !(p.1 == oldest)),
                     access_order := rest }
         | [] => st)
      else st
    { st1 with
      memory := st1.memory ++ [(key, mkSTItem key v now)],
      access_order := st1.access_order ++ [key] }

/-- The state reached by: set a, set b, update a, set c — on capacity 2. -/
def c9State : ShortTermMemory :=
  stmSet (stmSet (stmSet (stmSet (stmInit 2) "a" (.prim 1) 1)
    "b" (.prim 2) 2) "a" (.prim 3) 3) "c" (.prim 4) 4

/-- **C9 counterexample**: with capacity 2, after `set a; set b; set a
(update); set c`, the key whose most recent use is oldest is `b` (last used
at time 2, while `a` was used at time 3), so an LRU map would evict `b`.  The
code evicts `a` — the head of the insertion-order list, which updates never
refresh. -/
theorem lru_counterexample_C9 :
    lookupAssoc c9State.memory "a" = none ∧
      (lookupAssoc c9State.memory "b").isSome = true ∧
      (lookupAssoc c9State.memory "c").isSome = true := by
  exact ⟨by decide, by decide, by decide⟩

theorem find?_cons_eq {α : Type} (p : α → Bool) (a : α) (l : List α) :
    (a :: l).find? p = if p a then some a else l.find? p := by
  by_cases h : p a
  · rw [List.find?_cons_of_pos _ h, if_pos h]
  · rw [List.find?_cons_of_neg _ h, if_neg h]

theorem lookupAssoc_cons {α : Type} (a : String × α) (l : List (String × α))
    (k : String) :
    lookupAssoc (a :: l) k
      = if (a.1 == k) then some a.2 else lookupAssoc l k := by
  unfold lookupAssoc
  rw [find?_cons_eq]
  by_cases h : (a.1 == k) = true
  · rw [if_pos h, if_pos h]
    rfl
  · rw [if_neg h, if_neg h]

theorem lookupAssoc_filter_ne {α : Type} (l : List (String × α)) (oldest k : String) :
    lookupAssoc (l.filter (fun p => !(p.1 == oldest))) k
      = if k = oldest then none else lookupAssoc l k := by
  induction l with
  | nil => by_cases hk : k = oldest <;> simp [lookupAssoc, hk]
  | cons a l ih =>
    rw [List.filter_cons]
    by_cases ha : a.1 = oldest
    · have hb : (!(a.1 == oldest)) = false := by simp [ha]
      rw [hb, if_neg Bool.false_ne_true, ih, lookupAssoc_cons]
      by_cases hk : k = oldest
      · rw [if_pos hk, if_pos hk]
      · rw [if_neg hk, if_neg hk]
        have hak : (a.1 == k) = false := by
          rw [beq_eq_false_iff_ne, ha]
          exact fun hc => hk hc.symm
        rw [hak, if_neg Bool.false_ne_true]
    · have hb : (!(a.1 == oldest)) = true := by simp [ha]
      rw [hb, if_pos rfl, lookupAssoc_cons, lookupAssoc_cons, ih]
      by_cases hak : (a.1 == k) = true
      · have hk : ¬ k = oldest := by
          have haeq : a.1 = k := by simpa using hak
          intro hc
          exact ha (by rw [haeq, hc])
        rw [if_pos hak, if_neg hk, if_pos hak]
      · have hak2 : (a.1 == k) = false := by
          cases h : (a.1 == k) with
          | false => rfl
          | true => exact absurd h hak
        rw [hak2, if_neg Bool.false_ne_true]
        by_cases hk : k = oldest
        · rw [if_pos hk, if_pos hk]
        · rw [if_neg hk, if_neg hk, if_neg Bool.false_ne_true]

theorem lookupAssoc_append_single {α : Type} (l : List (String × α)) (key k : String)
    (v : α) :
    lookupAssoc (l ++ [(key, v)]) k =
      ((lookupAssoc l k).orElse (fun _ => if key = k then some v else none)) := by
  induction l with
  | nil =>
    show lookupAssoc [(key, v)] k = _
    rw [lookupAssoc_cons]
    by_cases h : key = k
    · have hb : (key == k) = true := by simp [h]
      rw [if_pos hb]
      simp [lookupAssoc, Option.orElse, h]
    · have hb : (key == k) = false := by simp [h]
      rw [hb, if_neg Bool.false_ne_true]
      simp [lookupAssoc, Option.orElse, h]
  | cons a l ih =>
    rw [List.cons_append, lookupAssoc_cons, lookupAssoc_cons, ih]
    by_cases h : (a.1 == k) = true
    · rw [if_pos h, if_pos h]
      simp [Option.orElse]
    · rw [if_neg h, if_neg h]

/-- **C9 amended**: the short-term tier is a FIFO map of default capacity
1000: `set` on an existing key updates the value in place and does not
refresh the key's position (the access-order list and the resident key set
are unchanged), and when the tier is at capacity and `set` is called with a
new key, the evicted key is the head of the access-order list — the
earliest-inserted resident key — while every other resident entry survives
and the new key is appended. -/
theorem stm_fifo_C9_amended (st : ShortTermMemory) (key : String) (v : PyVal)
    (now : Nat) :
    stmDefault.capacity = 1000 ∧
    (∀ item, lookupAssoc st.memory key = some item →
      (stmSet st key v now).access_order = st.access_order ∧
      ∀ k, ((lookupAssoc (stmSet st key v now).memory k).isSome
          = (lookupAssoc st.memory k).isSome)) ∧
    (lookupAssoc st.memory key = none → st.capacity ≤ st.memory.length →
      ∀ oldest rest, st.access_order = oldest :: rest →
      (lookupAssoc st.memory oldest).isSome = true →
      lookupAssoc (stmSet st key v now).memory oldest = none ∧
      (stmSet st key v now).access_order = rest ++ [key] ∧
      (lookupAssoc (stmSet st key v now).memory key).isSome = true ∧
      ∀ k, k ≠ oldest → k ≠ key →
        lookupAssoc (stmSet st key v now).memory k = lookupAssoc st.memory k) := by
  refine ⟨rfl, ?_, ?_⟩
  · intro item hitem
    unfold stmSet
    rw [hitem]
    refine ⟨rfl, ?_⟩
    intro k
    show (lookupAssoc (setAssoc st.memory key _) k).isSome = _
    rw [lookupAssoc_setAssoc]
    by_cases hk : key = k
    · rw [if_pos hk, ← hk, hitem]
      rfl
    · rw [if_neg hk]
  · intro hnone hcap oldest rest horder holdmem
    have hko : ¬ key = oldest := by
      intro hc
      rw [hc] at hnone
      rw [hnone] at holdmem
      cases holdmem
    unfold stmSet
    rw [hnone, horder]
    dsimp only
    rw [if_pos hcap]
    dsimp only
    refine ⟨?_, rfl, ?_, ?_⟩
    · rw [lookupAssoc_append_single, lookupAssoc_filter_ne, if_pos rfl]
      simp [Option.orElse, hko]
    · rw [lookupAssoc_append_single, lookupAssoc_filter_ne, if_neg hko, hnone]
      simp [Option.orElse]
    · intro k hko2 hkk
      rw [lookupAssoc_append_single, lookupAssoc_filter_ne,
        if_neg (fun hc => hko2 hc)]
      cases hlk : lookupAssoc st.memory k with
      | none =>
        have hkey : ¬ key = k := fun hc => hkk hc.symm
        simp [Option.orElse, hkey]
      | some w => simp [Option.orElse]

/-- A full state at capacity 2 used by the C9 witness. -/
def c9WitnessState : ShortTermMemory :=
  stmSet (stmSet (stmInit 2) "a" (.prim 1) 1) "b" (.prim 2) 2

/-- Witness for the amended C9: at capacity, inserting `c` evicts `a` (the
earliest-inserted key), keeps `b`, and appends `c`. -/
theorem stm_fifo_C9_amended_witness :
    lookupAssoc c9WitnessState.memory "c" = none ∧
      c9WitnessState.capacity ≤ c9WitnessState.memory.length ∧
      c9WitnessState.access_order = "a" :: ["b"] ∧
      lookupAssoc (stmSet c9WitnessState "c" (.prim 3) 3).memory "a" = none ∧
      (stmSet c9WitnessState "c" (.prim 3) 3).access_order = ["b"] ++ ["c"] ∧
      (lookupAssoc (stmSet c9WitnessState "c" (.prim 3) 3).memory "c").isSome = true ∧
      lookupAssoc (stmSet c9WitnessState "c" (.prim 3) 3).memory "b"
        = lookupAssoc c9WitnessState.memory "b" := by
  have h := (stm_fifo_C9_amended c9WitnessState "c" (.prim 3) 3).2.2
    (by decide) (by decide) "a" ["b"] (by decide) (by decide)
  exact ⟨by decide, by decide, by decide, h.1, h.2.1, h.2.2.1,
    h.2.2.2 "b" (by decide) (by decide)⟩

/-! ## GDPR consent gate (src/memory/gdpr_compliance.py)

The predictive cache's entries (`{'value', 'hits', 'last_access', 'created'}`)
carry no metadata dict at all, so the claim's clause about "cache entries
whose stored metadata carries the user id" is vacuous; the code clears the
cache by the substring test `"user_<id>" in key`.

Note that `EventStore.append` records every event twice: in the global
`events` list and in the per-aggregate `event_streams`.  The deletable branch
of `right_to_erasure` removes the event only from the global list
(`self.memory.event_store.events.remove(event)`), unlike the audit trail's
`anonymize_or_delete`, whose delete branch removes it from both. -/

structure CacheEntry where
  value : PyVal
  hits : Nat
  last_access : Nat
  created : Nat
deriving DecidableEq

/-- `AdvancedMemoryManager` as far as the erasure claim needs it; embedding
vectors are opaque tokens (their float contents are irrelevant here). -/
structure MemoryManager where
  event_store : EventStore
  short_term : ShortTermMemory
  long_term_storage : List (String × MemoryItem)
  long_term_embeddings : List (String × Nat)
  cache : List (String × CacheEntry)
deriving DecidableEq

structure GDPRMemory where
  memory : MemoryManager
  consent_registry : List (String × List (String × Nat))
deriving DecidableEq

/-- `GDPRCompliantMemory.has_consent`. -/
def has_consent (g : GDPRMemory) (u p : String) : Bool :=
  match lookupAssoc g.consent_registry u with
  | some m => (lookupAssoc m p).isSome
  | none => false

/-- `sub` matches the front of `t`. -/
def leadMatch : List Char → List Char → Bool
  | [], _ => true
  | _ :: _, [] => false
  | a :: as, b :: bs => a == b && leadMatch as bs

/-- Python's `sub in s` on strings. -/
def containsSub (s sub : String) : Bool :=
  s.toList.tails.any (fun t => leadMatch sub.toList t)

/-- One iteration of the erasure loop over the user's events: delete the
event outright when `metadata.get('can_delete', True)` is truthy, otherwise
hand it to the audit trail's anonymise-or-delete routine. -/
def eraseUserEventsStep (hf : PyVal → PyVal) (ha : String → String)
    (s : EventStore) (e : Event) : EventStore :=
  if e.metadata.can_delete.getD true then
    { s with events := s.events.erase e }
  else
    anonymize_or_delete hf ha s e

/-- `GDPRCompliantMemory._clear_from_memory_tiers`: drop the short-term and
long-term entries whose metadata carries the user id (Python deletes them by
key) and the cache entries whose key contains `"user_<id>"`. -/
def clearFromMemoryTiers (u : String) (mm : MemoryManager) : MemoryManager :=
  let stKeys := (mm.short_term.memory.filter
    (fun p => p.2.metadata.user_id == some u)).map (·.1)
  let st1 :=
    { mm.short_term with
      memory := stKeys.foldl (fun m k => m.filter (fun q => !(q.1 == k)))
        mm.short_term.memory,
      access_order := stKeys.foldl (fun ao k => ao.erase k)
        mm.short_term.access_order }
  let ltKeys := (mm.long_term_storage.filter
    (fun p => p.2.metadata.user_id == some u)).map (·.1)
  let lts := ltKeys.foldl (fun m k => m.filter (fun q => !(q.1 == k)))
    mm.long_term_storage
  let emb := ltKeys.foldl (fun m k => m.filter (fun q => !(q.1 == k)))
    mm.long_term_embeddings
  let cache1 := mm.cache.filter (fun p => !(containsSub p.1 ("user_" ++ u)))
  { mm with short_term := st1, long_term_storage := lts,
            long_term_embeddings := emb, cache := cache1 }

/-- `GDPRCompliantMemory.right_to_erasure`: process every stored event whose
`metadata.user_id` matches, clear the memory tiers, revoke all consents. -/
def right_to_erasure (hf : PyVal → PyVal) (ha : String → String) (u : String)
    (g : GDPRMemory) : GDPRMemory :=
  let userEvents := g.memory.event_store.events.filter
    (fun e => e.metadata.user_id == some u)
  let es1 := userEvents.foldl (fun acc e => eraseUserEventsStep hf ha acc e)
    g.memory.event_store
  let mm2 := clearFromMemoryTiers u { g.memory with event_store := es1 }
  { memory := mm2,
    consent_registry := g.consent_registry.filter (fun p => !(p.1 == u)) }

/-- An event the erasure claim must eliminate: it carries the user's id and
is deletable (`can_delete` absent or true). -/
def badFor (u : String) (e : Event) : Prop :=
  e.metadata.user_id = some u ∧ e.metadata.can_delete.getD true = true

instance (u : String) (e : Event) : Decidable (badFor u e) := by
  unfold badFor; infer_instance

theorem erase_fold_count (hf : PyVal → PyVal) (ha : String → String) (u : String) :
    ∀ (todo : List Event) (s : EventStore) (x : Event), badFor u x →
      s.events.count x ≤ todo.count x →
      ((todo.foldl (fun acc e => eraseUserEventsStep hf ha acc e) s).events.count x
        = 0) := by
  intro todo
  induction todo with
  | nil =>
    intro s x _ hle
    simpa using Nat.le_zero.mp (by simpa using hle)
  | cons e todo ih =>
    intro s x hbad hle
    rw [List.foldl_cons]
    by_cases hdel : e.metadata.can_delete.getD true = true
    · have hev : (eraseUserEventsStep hf ha s e).events = s.events.erase e := by
        unfold eraseUserEventsStep
        rw [if_pos hdel]
      refine ih (eraseUserEventsStep hf ha s e) x hbad ?_
      rw [hev]
      by_cases hxe : x = e
      · subst hxe
        rw [List.count_erase_self]
        rw [List.count_cons_self] at hle
        omega
      · rw [List.count_erase_of_ne hxe]
        rw [List.count_cons_of_ne hxe] at hle
        exact hle
    · have hxe : x ≠ e := by
        intro hc
        rw [hc] at hbad
        exact hdel hbad.2
      have hxa : x ≠ anonEvent hf ha e := by
        intro hc
        have : (anonEvent hf ha e).metadata.can_delete.getD true = true := by
          rw [← hc]; exact hbad.2
        exact hdel this
      refine ih (eraseUserEventsStep hf ha s e) x hbad ?_
      have hle2 : s.events.count x ≤ todo.count x := by
        rw [List.count_cons_of_ne hxe] at hle
        exact hle
      unfold eraseUserEventsStep
      rw [if_neg hdel]
      unfold anonymize_or_delete
      by_cases hpii : e.metadata.contains_pii.getD false = true
      · rw [if_pos hpii]
        dsimp only
        rw [count_map_replace_of_ne s.events e (anonEvent hf ha e) x hxe hxa]
        exact hle2
      · rw [if_neg hpii]
        dsimp only
        rw [List.count_erase_of_ne hxe]
        exact hle2

theorem count_filter_eq {α : Type} [DecidableEq α] (p : α → Bool) (l : List α)
    (a : α) (h : p a = true) : (l.filter p).count a = l.count a := by
  induction l with
  | nil => rfl
  | cons b l ih =>
    rw [List.filter_cons]
    by_cases hb : p b = true
    · rw [if_pos hb, List.count_cons, List.count_cons, ih]
    · rw [if_neg hb, ih]
      have hab : (b == a) = false := by
        rw [beq_eq_false_iff_ne]
        intro hc
        rw [← hc] at h
        exact hb h
      rw [List.count_cons, hab]
      simp

theorem mem_foldl_filter {α : Type} :
    ∀ (keys : List String) (m : List (String × α)) (p : String × α),
      p ∈ keys.foldl (fun m k => m.filter (fun q => !(q.1 == k))) m →
      p ∈ m ∧ p.1 ∉ keys := by
  intro keys
  induction keys with
  | nil => intro m p h; exact ⟨h, by simp⟩
  | cons k ks ih =>
    intro m p h
    rw [List.foldl_cons] at h
    obtain ⟨hmem, hnotin⟩ := ih _ p h
    have hf := List.mem_filter.mp hmem
    refine ⟨hf.1, ?_⟩
    intro hcon
    rcases List.mem_cons.mp hcon with hc | hc
    · have := hf.2
      rw [hc] at this
      simp at this
    · exact hnotin hc

/-- What `right_to_erasure` does achieve: the global `events` list retains no
deletable event of the user, all consents are revoked, and the short-term and
long-term entries whose metadata carries the user id are gone.  The
per-aggregate `event_streams` are not covered: the deletable branch leaves
them untouched, which is exhibited separately below. -/
theorem right_to_erasure_partial (hf : PyVal → PyVal) (ha : String → String)
    (u : String) (g : GDPRMemory) :
    (∀ x ∈ (right_to_erasure hf ha u g).memory.event_store.events, ¬ badFor u x) ∧
    (∀ p, has_consent (right_to_erasure hf ha u g) u p = false) ∧
    (∀ kv ∈ (right_to_erasure hf ha u g).memory.short_term.memory,
      kv.2.metadata.user_id ≠ some u) ∧
    (∀ kv ∈ (right_to_erasure hf ha u g).memory.long_term_storage,
      kv.2.metadata.user_id ≠ some u) := by
  refine ⟨?_, ?_, ?_, ?_⟩
  · intro x hx hbad
    have hcount : ((g.memory.event_store.events.filter
        (fun e => e.metadata.user_id == some u)).foldl
        (fun acc e => eraseUserEventsStep hf ha acc e)
        g.memory.event_store).events.count x = 0 := by
      refine erase_fold_count hf ha u _ g.memory.event_store x hbad ?_
      have hpx : (fun e : Event => e.metadata.user_id == some u) x = true := by
        simp [hbad.1]
      exact Nat.le_of_eq (count_filter_eq (fun e => e.metadata.user_id == some u)
        g.memory.event_store.events x hpx).symm
    have hx2 : x ∈ ((g.memory.event_store.events.filter
        (fun e => e.metadata.user_id == some u)).foldl
        (fun acc e => eraseUserEventsStep hf ha acc e)
        g.memory.event_store).events := hx
    rw [← List.count_pos_iff] at hx2
    omega
  · intro p
    unfold has_consent right_to_erasure
    dsimp only
    rw [lookupAssoc_filter_ne, if_pos rfl]
  · intro kv hkv
    obtain ⟨hmem, hnot⟩ := mem_foldl_filter _ _ kv hkv
    intro hc
    apply hnot
    refine List.mem_map_of_mem _ (List.mem_filter.mpr ⟨hmem, ?_⟩)
    simp [hc]
  · intro kv hkv
    obtain ⟨hmem, hnot⟩ := mem_foldl_filter _ _ kv hkv
    intro hc
    apply hnot
    refine List.mem_map_of_mem _ (List.mem_filter.mpr ⟨hmem, ?_⟩)
    simp [hc]

/-- A deletable event of user `"alice"` (`can_delete` absent, so
`metadata.get('can_delete', True)` is true). -/
def c7Ev : Event :=
  { id := "e1", timestamp := 0, type := .MEMORY_WRITE, aggregate_id := "agg",
    data := [("value", .prim 1)], actor := "alice",
    metadata := { user_id := some "alice", can_delete := none,
                  contains_pii := none, data_type := none } }

/-- A GDPR memory whose event store was fed `c7Ev` through the normal
`append` path, so the event sits in both `events` and `event_streams`. -/
def c7Mem : GDPRMemory :=
  { memory := { event_store := appendES c7Ev esInit,
                short_term := stmDefault,
                long_term_storage := [], long_term_embeddings := [],
                cache := [] },
    consent_registry := [("alice", [("research", 0)])] }

/-- **C7** (code bug): the claim requires that after `rightToErasure(u)` no
stored event carries `metadata.user_id = u` with `can_delete ≠ false`.  The
deletable branch of `right_to_erasure` removes the user's event only from the
global `event_store.events` list; the copy recorded by `append` in the
per-aggregate `event_streams` is left in place, so the erased user's
deletable event is still stored — and still served by `replay_events` (and
hence `get_state_at` / `get_access_history`, which read the same stream). -/
theorem right_to_erasure_streams_bug_C7 :
    badFor "alice" c7Ev ∧
    c7Ev ∈ c7Mem.memory.event_store.events ∧
    c7Ev ∈ streamOf c7Mem.memory.event_store "agg" ∧
    (right_to_erasure (fun v => v) (fun s => s) "alice"
      c7Mem).memory.event_store.events = [] ∧
    c7Ev ∈ streamOf (right_to_erasure (fun v => v) (fun s => s) "alice"
      c7Mem).memory.event_store "agg" ∧
    (replay_events (right_to_erasure (fun v => v) (fun s => s) "alice"
      c7Mem).memory.event_store "agg").1.events = [c7Ev] := by
  exact ⟨⟨rfl, rfl⟩, by decide, by decide, by decide, by decide, by decide⟩

/-! ## Orchestrator and registry (src/core/orchestrator.py, src/core/registry.py)

The registry's capability/type indices and the bus notifications published on
spawn/terminate are not inspected by the claims and are left out of this
state; `uuid4` identifiers are passed in as the `newId` argument with a
freshness hypothesis. -/

structure Agent where
  id : String
  agent_type : String
  parent_id : Option String
  can_spawn_children : Bool
  capabilities : List String
deriving DecidableEq

structure Registry where
  agents : List Agent
  factories : List String
deriving DecidableEq

/-- `AgentRegistry.get` (the `last_seen` refresh has no observable effect
here). -/
def lookupAgent (reg : Registry) (aid : String) : Option Agent :=
  reg.agents.find? (fun ag => ag.id == aid)

structure OrchState where
  registry : Registry
  active : List String
  max_concurrent : Nat
deriving DecidableEq

/-- `AgentOrchestrator.__init__`: empty active set, limit 50. -/
def orchInit (reg : Registry) : OrchState :=
  { registry := reg, active := [], max_concurrent := 50 }

structure SpawnRequest where
  agent_type : String
  capabilities : List String
  parent_id : Option String
deriving DecidableEq

inductive SpawnError
  | CapacityExceeded
  | UnknownParent
  | ParentCannotSpawn
  | UnknownType
  | AlreadyRegistered
deriving DecidableEq

/-- The agent built by `create_agent` plus the `agent.parent_id` assignment:
`BaseAgent.__init__` sets `can_spawn_children = True`. -/
def spawnedAgent (req : SpawnRequest) (newId : String) : Agent :=
  { id := newId, agent_type := req.agent_type, parent_id := req.parent_id,
    can_spawn_children := true, capabilities := req.capabilities }

/-- The state after a successful spawn: the agent registered, the id added to
the active set. -/
def spawnSuccState (st : OrchState) (req : SpawnRequest) (newId : String) :
    OrchState :=
  { st with
    registry := { st.registry with
      agents := st.registry.agents ++ [spawnedAgent req newId] },
    active := if newId ∈ st.active then st.active else st.active ++ [newId] }

/-- `AgentOrchestrator.spawn_agent`: capacity check, then parent validation,
then `create_agent` (unknown type check), then registration (duplicate-id
check inside `register`) and insertion into the active set. -/
def spawn_agent (st : OrchState) (req : SpawnRequest) (newId : String) :
    Except SpawnError (String × OrchState) :=
  if st.max_concurrent ≤ st.active.length then .error .CapacityExceeded
  else
    let afterParent : Except SpawnError Unit :=
      match req.parent_id with
      | some pid =>
        match lookupAgent st.registry pid with
        | none => .error .UnknownParent
        | some parent =>
          if parent.can_spawn_children then .ok () else .error .ParentCannotSpawn
      | none => .ok ()
    match afterParent with
    | .error e => .error e
    | .ok _ =>
      if st.registry.factories.contains req.agent_type then
        if (lookupAgent st.registry newId).isSome then .error .AlreadyRegistered
        else .ok (newId, spawnSuccState st req newId)
      else .error .UnknownType

/-- The spawn preconditions of the claim. -/
def SpawnOk (st : OrchState) (req : SpawnRequest) : Prop :=
  st.active.length < st.max_concurrent ∧
  st.registry.factories.contains req.agent_type = true ∧
  (∀ pid, req.parent_id = some pid →
    ∃ parent, lookupAgent st.registry pid = some parent ∧
      parent.can_spawn_children = true)

/-- **C3.** `spawn(request)` returns a fresh agent id exactly when the
preconditions hold — active count below `maxConcurrent` (default 50), type
known to the registry, and, when a parent is named, the parent exists with
`canSpawnChildren = true` — and otherwise fails with the corresponding typed
error; the spawn that brings the active count to exactly `maxConcurrent`
succeeds, and every further spawn fails with CapacityExceeded. -/
theorem spawn_agent_C3 (st : OrchState) (req : SpawnRequest) (newId : String)
    (hfresh : lookupAgent st.registry newId = none)
    (hfresh2 : newId ∉ st.active) :
    ((orchInit st.registry).max_concurrent = 50) ∧
    (spawn_agent st req newId = .ok (newId, spawnSuccState st req newId)
      ↔ SpawnOk st req) ∧
    (spawn_agent st req newId = .error .CapacityExceeded
      ↔ st.max_concurrent ≤ st.active.length) ∧
    (spawn_agent st req newId = .error .UnknownParent →
      ∃ pid, req.parent_id = some pid ∧ lookupAgent st.registry pid = none) ∧
    (spawn_agent st req newId = .error .ParentCannotSpawn →
      ∃ pid parent, req.parent_id = some pid ∧
        lookupAgent st.registry pid = some parent ∧
        parent.can_spawn_children = false) ∧
    (spawn_agent st req newId = .error .UnknownType →
      st.registry.factories.contains req.agent_type = false) ∧
    (spawn_agent st req newId ≠ .error .AlreadyRegistered) ∧
    (spawn_agent st req newId = .ok (newId, spawnSuccState st req newId) →
      (spawnSuccState st req newId).active.length = st.active.length + 1 ∧
      ((spawnSuccState st req newId).active.length = st.max_concurrent →
        ∀ (req2 : SpawnRequest) (id2 : String),
          spawn_agent (spawnSuccState st req newId) req2 id2
            = .error .CapacityExceeded)) := by
  have hlen : (spawnSuccState st req newId).active.length = st.active.length + 1 := by
    unfold spawnSuccState
    dsimp only
    rw [if_neg hfresh2]
    simp
  have hfreshb : (lookupAgent st.registry newId).isSome = false := by
    rw [hfresh]; rfl
  by_cases hcap : st.max_concurrent ≤ st.active.length
  · have hres : spawn_agent st req newId = .error .CapacityExceeded := by
      unfold spawn_agent; rw [if_pos hcap]
    refine ⟨rfl, ?_, ?_, ?_, ?_, ?_, ?_, ?_⟩
    · rw [hres]
      constructor
      · intro h; simp at h
      · intro h
        obtain ⟨h1, _, _⟩ := h
        omega
    · rw [hres]; simp [hcap]
    · rw [hres]; intro h; simp at h
    · rw [hres]; intro h; simp at h
    · rw [hres]; intro h; simp at h
    · rw [hres]; intro h; simp at h
    · intro hok
      rw [hres] at hok
      simp at hok
  · rcases hpid : req.parent_id with _ | pid
    · by_cases htype : st.registry.factories.contains req.agent_type = true
      · have htypem : req.agent_type ∈ st.registry.factories := by
          simpa using htype
        have hres : spawn_agent st req newId = .ok (newId, spawnSuccState st req newId) := by
          simp [spawn_agent, hcap, hpid, htypem, hfreshb]
        refine ⟨rfl, ?_, ?_, ?_, ?_, ?_, ?_, ?_⟩
        · rw [hres]
          constructor
          · intro _
            refine ⟨by omega, htype, ?_⟩
            intro p hp
            rw [hpid] at hp
            cases hp
          · intro _; rfl
        · rw [hres]
          constructor
          · intro h; simp at h
          · intro h; exact absurd h hcap
        · rw [hres]; intro h; simp at h
        · rw [hres]; intro h; simp at h
        · rw [hres]; intro h; simp at h
        · rw [hres]; intro h; simp at h
        · intro _
          refine ⟨hlen, ?_⟩
          intro hmax req2 id2
          unfold spawn_agent
          have hmc : (spawnSuccState st req newId).max_concurrent = st.max_concurrent := rfl
          rw [hmc, if_pos (le_of_eq hmax.symm)]
      · have htypem : req.agent_type ∉ st.registry.factories := by
          simpa using htype
        have hres : spawn_agent st req newId = .error .UnknownType := by
          simp [spawn_agent, hcap, hpid, htypem]
        refine ⟨rfl, ?_, ?_, ?_, ?_, ?_, ?_, ?_⟩
        · rw [hres]
          constructor
          · intro h; simp at h
          · intro h
            obtain ⟨_, h2, _⟩ := h
            exact absurd h2 htype
        · rw [hres]
          constructor
          · intro h; simp at h
          · intro h; exact absurd h hcap
        · rw [hres]; intro h; simp at h
        · rw [hres]; intro h; simp at h
        · rw [hres]; intro _
          cases hv : st.registry.factories.contains req.agent_type with
          | false => rfl
          | true => exact absurd hv htype
        · rw [hres]; intro h; simp at h
        · intro hok
          rw [hres] at hok
          simp at hok
    · rcases hpar : lookupAgent st.registry pid with _ | parent
      · have hres : spawn_agent st req newId = .error .UnknownParent := by
          simp [spawn_agent, hcap, hpid, hpar]
        refine ⟨rfl, ?_, ?_, ?_, ?_, ?_, ?_, ?_⟩
        · rw [hres]
          constructor
          · intro h; simp at h
          · intro h
            obtain ⟨_, _, h3⟩ := h
            obtain ⟨par, hp1, _⟩ := h3 pid hpid
            rw [hpar] at hp1
            cases hp1
        · rw [hres]
          constructor
          · intro h; simp at h
          · intro h; exact absurd h hcap
        · rw [hres]; intro _
          exact ⟨pid, rfl, hpar⟩
        · rw [hres]; intro h; simp at h
        · rw [hres]; intro h; simp at h
        · rw [hres]; intro h; simp at h
        · intro hok
          rw [hres] at hok
          simp at hok
      · by_cases hcs : parent.can_spawn_children = true
        · by_cases htype : st.registry.factories.contains req.agent_type = true
          · have htypem : req.agent_type ∈ st.registry.factories := by
              simpa using htype
            have hres : spawn_agent st req newId = .ok (newId, spawnSuccState st req newId) := by
              simp [spawn_agent, hcap, hpid, hpar, hcs, htypem, hfreshb]
            refine ⟨rfl, ?_, ?_, ?_, ?_, ?_, ?_, ?_⟩
            · rw [hres]
              constructor
              · intro _
                refine ⟨by omega, htype, ?_⟩
                intro p hp
                rw [hpid] at hp
                cases hp
                exact ⟨parent, hpar, hcs⟩
              · intro _; rfl
            · rw [hres]
              constructor
              · intro h; simp at h
              · intro h; exact absurd h hcap
            · rw [hres]; intro h; simp at h
            · rw [hres]; intro h; simp at h
            · rw [hres]; intro h; simp at h
            · rw [hres]; intro h; simp at h
            · intro _
              refine ⟨hlen, ?_⟩
              intro hmax req2 id2
              unfold spawn_agent
              have hmc : (spawnSuccState st req newId).max_concurrent = st.max_concurrent := rfl
              rw [hmc, if_pos (le_of_eq hmax.symm)]
          · have htypem : req.agent_type ∉ st.registry.factories := by
              simpa using htype
            have hres : spawn_agent st req newId = .error .UnknownType := by
              simp [spawn_agent, hcap, hpid, hpar, hcs, htypem]
            refine ⟨rfl, ?_, ?_, ?_, ?_, ?_, ?_, ?_⟩
            · rw [hres]
              constructor
              · intro h; simp at h
              · intro h
                obtain ⟨_, h2, _⟩ := h
                exact absurd h2 htype
            · rw [hres]
              constructor
              · intro h; simp at h
              · intro h; exact absurd h hcap
            · rw [hres]; intro h; simp at h
            · rw [hres]; intro h; simp at h
            · rw [hres]; intro _
              cases hv : st.registry.factories.contains req.agent_type with
              | false => rfl
              | true => exact absurd hv htype
            · rw [hres]; intro h; simp at h
            · intro hok
              rw [hres] at hok
              simp at hok
        · have hres : spawn_agent st req newId = .error .ParentCannotSpawn := by
            simp [spawn_agent, hcap, hpid, hpar, hcs]
          refine ⟨rfl, ?_, ?_, ?_, ?_, ?_, ?_, ?_⟩
          · rw [hres]
            constructor
            · intro h; simp at h
            · intro h
              obtain ⟨_, _, h3⟩ := h
              obtain ⟨par, hp1, hp2⟩ := h3 pid hpid
              rw [hpar] at hp1
              cases hp1
              exact absurd hp2 hcs
          · rw [hres]
            constructor
            · intro h; simp at h
            · intro h; exact absurd h hcap
          · rw [hres]; intro h; simp at h
          · rw [hres]; intro _
            refine ⟨pid, parent, rfl, hpar, ?_⟩
            cases hv : parent.can_spawn_children with
            | false => rfl
            | true => exact absurd hv hcs
          · rw [hres]; intro h; simp at h
          · rw [hres]; intro h; simp at h
          · intro hok
            rw [hres] at hok
            simp at hok

def c3Reg : Registry :=
  { agents := [], factories := ["research"] }

def c3St : OrchState :=
  orchInit c3Reg

def c3Req : SpawnRequest :=
  { agent_type := "research", capabilities := ["search"], parent_id := none }

/-- Witness for C3: in a fresh orchestrator with one registered factory, the
hypotheses hold and a spawn with no parent succeeds. -/
theorem spawn_agent_C3_witness :
    lookupAgent c3St.registry "a1" = none ∧ ("a1" ∉ c3St.active) ∧
    spawn_agent c3St c3Req "a1" = .ok ("a1", spawnSuccState c3St c3Req "a1") := by
  refine ⟨rfl, by decide, ?_⟩
  have h := spawn_agent_C3 c3St c3Req "a1" rfl (by decide)
  refine h.2.1.mpr ⟨by decide, by decide, ?_⟩
  intro p hp
  simp [c3Req] at hp

/-! ## Cascade termination (`AgentOrchestrator.terminate_agent`,
`AgentRegistry.get_children` / `get_descendants` / `unregister`) -/

/-- `AgentRegistry.get_children`: the registered agents whose `parent_id` is
`aid` (the `_parent_index` is kept consistent with the registrations). -/
def childrenOf (reg : Registry) (aid : String) : List Agent :=
  reg.agents.filter (fun ag => decide (ag.parent_id = some aid))

/-- `AgentRegistry.unregister`: drop the registration with that id; a no-op
when the id is absent. -/
def unregisterAgent (reg : Registry) (aid : String) : Registry :=
  { reg with agents := reg.agents.filter (fun ag => !(ag.id == aid)) }

/-- `AgentOrchestrator.terminate_agent`, with explicit recursion fuel standing
for Python's call stack: an absent id is skipped; otherwise the children
recorded in the registry at call time are terminated recursively, and then the
agent itself is removed from the active set and the registry. -/
def terminate_agent : Nat → OrchState → String → OrchState
  | 0, st, _ => st
  | fuel+1, st, aid =>
    match lookupAgent st.registry aid with
    | none => st
    | some _ =>
      let st1 := (childrenOf st.registry aid).foldl
        (fun acc c => terminate_agent fuel acc c.id) st
      { registry := unregisterAgent st1.registry aid,
        active := st1.active.filter (fun x => !(x == aid)),
        max_concurrent := st1.max_concurrent }

/-- One parent-child edge recorded in the registry: `y` is a registered agent
whose `parent_id` is `x`. -/
def childStep (reg : Registry) (x y : String) : Prop :=
  ∃ ag ∈ reg.agents, ag.id = y ∧ ag.parent_id = some x

/-- `y` is a descendant of `x` as collected by the BFS of
`AgentRegistry.get_descendants`: reachable through one or more parent-child
edges. -/
def DescR (reg : Registry) (x y : String) : Prop :=
  Relation.TransGen (childStep reg) x y

/-- Number of registered agents whose rank exceeds `rank a`; it bounds the
depth of the termination cascade rooted at `a`. -/
def rankMeasure (rank : String → Nat) (st : OrchState) (a : String) : Nat :=
  (st.registry.agents.filter (fun ag => decide (rank a < rank ag.id))).length

theorem find?_none_of_sublist {α : Type} (p : α → Bool) {l1 l2 : List α}
    (h : List.Sublist l1 l2) (h2 : l2.find? p = none) : l1.find? p = none := by
  rw [List.find?_eq_none] at h2 ⊢
  exact fun x hx => h2 x (h.subset hx)

/-- `terminate_agent` only ever removes registrations and active ids. -/
theorem terminate_sublist : ∀ (F : Nat) (st : OrchState) (aid : String),
    List.Sublist (terminate_agent F st aid).registry.agents st.registry.agents ∧
    List.Sublist (terminate_agent F st aid).active st.active := by
  intro F
  induction F with
  | zero => intro st aid; exact ⟨List.Sublist.refl _, List.Sublist.refl _⟩
  | succ F IH =>
    intro st aid
    have hfold : ∀ (l : List Agent) (s : OrchState),
        List.Sublist ((l.foldl (fun acc c => terminate_agent F acc c.id) s).registry.agents)
          s.registry.agents ∧
        List.Sublist ((l.foldl (fun acc c => terminate_agent F acc c.id) s).active)
          s.active := by
      intro l
      induction l with
      | nil => intro s; exact ⟨List.Sublist.refl _, List.Sublist.refl _⟩
      | cons c rest ihl =>
        intro s
        simp only [List.foldl_cons]
        exact ⟨(ihl (terminate_agent F s c.id)).1.trans (IH s c.id).1,
               (ihl (terminate_agent F s c.id)).2.trans (IH s c.id).2⟩
    cases hl : lookupAgent st.registry aid with
    | none =>
      simp only [terminate_agent, hl]
      exact ⟨List.Sublist.refl _, List.Sublist.refl _⟩
    | some ag =>
      simp only [terminate_agent, hl, unregisterAgent]
      exact ⟨(List.filter_sublist _).trans (hfold _ st).1,
             (List.filter_sublist _).trans (hfold _ st).2⟩

/-- In a registry with distinct ids, lookup of a registered agent's id finds
that agent. -/
theorem find?_id_of_mem_nodup : ∀ (l : List Agent),
    (l.map (fun ag => ag.id)).Nodup → ∀ ag ∈ l,
    l.find? (fun x => x.id == ag.id) = some ag := by
  intro l
  induction l with
  | nil => intro _ ag hmem; cases hmem
  | cons h t ih =>
    intro hnd ag hmem
    rw [List.map_cons, List.nodup_cons] at hnd
    rcases List.mem_cons.mp hmem with rfl | hmt
    · rw [List.find?_cons_of_pos]
      simp
    · have hne : (h.id == ag.id) = false := by
        rcases hbe : h.id == ag.id with _ | _
        · rfl
        · exact absurd (by rw [eq_of_beq hbe]; exact List.mem_map_of_mem _ hmt) hnd.1
      rw [List.find?_cons_of_neg]
      · exact ih hnd.2 ag hmt
      · simp [hne]

/-- A successful lookup in a sub-registry of a registry with distinct ids
returns the unique registered agent with that id. -/
theorem lookup_eq_of_sublist {reg' reg : Registry}
    (hsub : List.Sublist reg'.agents reg.agents)
    (hnd : (reg.agents.map (fun ag => ag.id)).Nodup)
    {ag : Agent} (hmem : ag ∈ reg.agents) {e : Agent}
    (hfind : lookupAgent reg' ag.id = some e) : e = ag := by
  have hfind' : reg'.agents.find? (fun x => x.id == ag.id) = some e := hfind
  have hmem' : e ∈ reg'.agents := List.mem_of_find?_eq_some hfind'
  have hid := List.find?_some hfind'
  exact List.inj_on_of_nodup_map hnd (hsub.subset hmem') hmem
    (eq_of_beq (by simpa using hid))

theorem childStep_mono {reg' reg : Registry}
    (hsub : ∀ x ∈ reg'.agents, x ∈ reg.agents) {x y : String}
    (h : childStep reg' x y) : childStep reg x y := by
  obtain ⟨ag, hmem, h1, h2⟩ := h
  exact ⟨ag, hsub ag hmem, h1, h2⟩

theorem descR_mono {reg' reg : Registry}
    (hsub : ∀ x ∈ reg'.agents, x ∈ reg.agents) {x y : String}
    (h : DescR reg' x y) : DescR reg x y :=
  Relation.TransGen.mono (fun _ _ => childStep_mono hsub) h

theorem childrenOf_step {reg : Registry} {x : String} {c : Agent}
    (hc : c ∈ childrenOf reg x) : childStep reg x c.id := by
  rw [childrenOf, List.mem_filter] at hc
  exact ⟨c, hc.1, rfl, of_decide_eq_true hc.2⟩

/-- Everything `terminate_agent` removes — from the registry or from the
active set — is the terminated agent itself or one of its descendants. -/
theorem terminate_removed_cause : ∀ (F : Nat) (st : OrchState) (x z : String),
    (lookupAgent (terminate_agent F st x).registry z = none →
      lookupAgent st.registry z = none ∨ z = x ∨ DescR st.registry x z) ∧
    (z ∉ (terminate_agent F st x).active →
      z ∉ st.active ∨ z = x ∨ DescR st.registry x z) := by
  intro F
  induction F with
  | zero => intro st x z; exact ⟨fun h => Or.inl h, fun h => Or.inl h⟩
  | succ F IH =>
    intro st x z
    cases hl : lookupAgent st.registry x with
    | none =>
      simp only [terminate_agent, hl]
      exact ⟨fun h => Or.inl h, fun h => Or.inl h⟩
    | some ag =>
      have hfold : ∀ (l : List Agent), (∀ c ∈ l, childStep st.registry x c.id) →
          ∀ (s : OrchState), List.Sublist s.registry.agents st.registry.agents →
          ∀ z2 : String,
          ((lookupAgent (l.foldl (fun acc c => terminate_agent F acc c.id) s).registry z2 = none →
             lookupAgent s.registry z2 = none ∨ DescR st.registry x z2) ∧
           (z2 ∉ (l.foldl (fun acc c => terminate_agent F acc c.id) s).active →
             z2 ∉ s.active ∨ DescR st.registry x z2)) := by
        intro l
        induction l with
        | nil => intro _ s _ z2; exact ⟨fun h => Or.inl h, fun h => Or.inl h⟩
        | cons c rest ihl =>
          intro hcl s hsub z2
          simp only [List.foldl_cons]
          have hstep : childStep st.registry x c.id := hcl c (List.mem_cons_self c rest)
          have hsub' : List.Sublist (terminate_agent F s c.id).registry.agents
              st.registry.agents :=
            (terminate_sublist F s c.id).1.trans hsub
          have hrest := ihl (fun c2 hc2 => hcl c2 (List.mem_cons_of_mem c hc2))
            (terminate_agent F s c.id) hsub' z2
          have hcause : ∀ h0 : Prop, (h0 ∨ z2 = c.id ∨ DescR s.registry c.id z2) →
              h0 ∨ DescR st.registry x z2 := by
            intro h0 hc0
            rcases hc0 with h | rfl | hd
            · exact Or.inl h
            · exact Or.inr (Relation.TransGen.single hstep)
            · exact Or.inr (Relation.TransGen.head hstep
                (descR_mono (fun q hq => hsub.subset hq) hd))
          refine ⟨?_, ?_⟩
          · intro h
            rcases hrest.1 h with h2 | hd
            · exact hcause _ ((IH s c.id z2).1 h2)
            · exact Or.inr hd
          · intro h
            rcases hrest.2 h with h2 | hd
            · exact hcause _ ((IH s c.id z2).2 h2)
            · exact Or.inr hd
      simp only [terminate_agent, hl]
      constructor
      · intro h
        by_cases hzx : z = x
        · exact Or.inr (Or.inl hzx)
        · have h1 : lookupAgent ((childrenOf st.registry x).foldl
              (fun acc c => terminate_agent F acc c.id) st).registry z = none := by
            rcases hfind : lookupAgent ((childrenOf st.registry x).foldl
                (fun acc c => terminate_agent F acc c.id) st).registry z with _ | e
            · exact hfind
            · exfalso
              have hfind' : (((childrenOf st.registry x).foldl
                  (fun acc c => terminate_agent F acc c.id) st).registry.agents.find?
                    (fun q => q.id == z)) = some e := hfind
              have hmem : e ∈ ((childrenOf st.registry x).foldl
                  (fun acc c => terminate_agent F acc c.id) st).registry.agents :=
                List.mem_of_find?_eq_some hfind'
              have hid := List.find?_some hfind'
              have hne : (e.id == x) = false := by
                rcases hbe : e.id == x with _ | _
                · rfl
                · refine absurd ?_ hzx
                  have h4 : e.id = z := eq_of_beq (by simpa using hid)
                  have h5 : e.id = x := eq_of_beq hbe
                  rw [← h4, h5]
              have hmem2 : e ∈ (unregisterAgent ((childrenOf st.registry x).foldl
                  (fun acc c => terminate_agent F acc c.id) st).registry x).agents := by
                rw [unregisterAgent]
                exact List.mem_filter.mpr ⟨hmem, by simp [hne]⟩
              have h2 : lookupAgent (unregisterAgent ((childrenOf st.registry x).foldl
                  (fun acc c => terminate_agent F acc c.id) st).registry x) z = none := h
              rw [lookupAgent, List.find?_eq_none] at h2
              exact h2 e hmem2 (by simpa using hid)
          rcases (hfold (childrenOf st.registry x) (fun c hc => childrenOf_step hc)
              st (List.Sublist.refl _) z).1 h1 with h2 | hd
          · exact Or.inl h2
          · exact Or.inr (Or.inr hd)
      · intro h
        by_cases hzx : z = x
        · exact Or.inr (Or.inl hzx)
        · have h1 : z ∉ ((childrenOf st.registry x).foldl
              (fun acc c => terminate_agent F acc c.id) st).active := by
            intro hz
            exact h (List.mem_filter.mpr ⟨hz, by simp [hzx]⟩)
          rcases (hfold (childrenOf st.registry x) (fun c hc => childrenOf_step hc)
              st (List.Sublist.refl _) z).2 h1 with h2 | hd
          · exact Or.inl h2
          · exact Or.inr (Or.inr hd)

theorem desc_last_edge {α : Type} {r : α → α → Prop} {x b : α}
    (h : Relation.TransGen r x b) :
    ∃ w, (x = w ∨ Relation.TransGen r x w) ∧ r w b := by
  cases h with
  | single h1 => exact ⟨x, Or.inl rfl, h1⟩
  | tail hd hr => exact ⟨_, Or.inr hd, hr⟩

theorem desc_head_edge {α : Type} {r : α → α → Prop} {a b : α}
    (h : Relation.TransGen r a b) :
    ∃ c, r a c ∧ (c = b ∨ Relation.TransGen r c b) := by
  induction h with
  | single h1 => exact ⟨_, h1, Or.inl rfl⟩
  | tail _ hr ih =>
    obtain ⟨c, hac, hcb⟩ := ih
    refine ⟨c, hac, Or.inr ?_⟩
    rcases hcb with rfl | ht
    · exact Relation.TransGen.single hr
    · exact Relation.TransGen.tail ht hr

/-- With distinct ids, a registered agent has a unique parent edge. -/
theorem childStep_unique_parent {reg : Registry}
    (hnd : (reg.agents.map (fun ag => ag.id)).Nodup) {w w' b : String}
    (h1 : childStep reg w b) (h2 : childStep reg w' b) : w = w' := by
  obtain ⟨a1, m1, i1, p1⟩ := h1
  obtain ⟨a2, m2, i2, p2⟩ := h2
  have heq : a1 = a2 := List.inj_on_of_nodup_map hnd m1 m2 (by rw [i1, i2])
  rw [heq] at p1
  rw [p1] at p2
  exact Option.some.inj p2

theorem childStep_rank {reg : Registry} (rank : String → Nat)
    (hrank : ∀ ag ∈ reg.agents, ∀ p, ag.parent_id = some p → rank p < rank ag.id)
    {x y : String} (h : childStep reg x y) : rank x < rank y := by
  obtain ⟨ag, hm, hi, hp⟩ := h
  have h2 := hrank ag hm x hp
  rwa [hi] at h2

theorem descR_rank {reg : Registry} (rank : String → Nat)
    (hrank : ∀ ag ∈ reg.agents, ∀ p, ag.parent_id = some p → rank p < rank ag.id)
    {x y : String} (h : DescR reg x y) : rank x < rank y := by
  induction h with
  | single h1 => exact childStep_rank rank hrank h1
  | tail _ hr ih => exact ih.trans (childStep_rank rank hrank hr)

/-- Two ancestors of a common node are comparable in the registry forest. -/
theorem desc_comparable {reg : Registry} (rank : String → Nat)
    (hnd : (reg.agents.map (fun ag => ag.id)).Nodup)
    (hrank : ∀ ag ∈ reg.agents, ∀ p, ag.parent_id = some p → rank p < rank ag.id) :
    ∀ (n : Nat) (z : String), rank z ≤ n → ∀ x y, DescR reg x z → DescR reg y z →
      x = y ∨ DescR reg x y ∨ DescR reg y x := by
  intro n
  induction n with
  | zero =>
    intro z hz x y hx _
    exact absurd (descR_rank rank hrank hx) (by omega)
  | succ n ihn =>
    intro z hz x y hx hy
    obtain ⟨w1, hw1, he1⟩ := desc_last_edge hx
    obtain ⟨w2, hw2, he2⟩ := desc_last_edge hy
    have hw : w2 = w1 := (childStep_unique_parent hnd he1 he2).symm
    rw [hw] at hw2
    have hrz : rank w1 < rank z := childStep_rank rank hrank he1
    rcases hw1 with rfl | hxw
    · rcases hw2 with rfl | hyw
      · exact Or.inl rfl
      · exact Or.inr (Or.inr hyw)
    · rcases hw2 with rfl | hyw
      · exact Or.inr (Or.inl hxw)
      · exact ihn w1 (by omega) x y hxw hyw

/-- No descendant relation holds between distinct children of one parent. -/
theorem no_desc_sibling {reg : Registry} (rank : String → Nat)
    (hnd : (reg.agents.map (fun ag => ag.id)).Nodup)
    (hrank : ∀ ag ∈ reg.agents, ∀ p, ag.parent_id = some p → rank p < rank ag.id)
    {a u v : String}
    (hu : childStep reg a u) (hv : childStep reg a v) (huv : u ≠ v) :
    ¬ DescR reg u v := by
  intro hd
  obtain ⟨w, hw, he⟩ := desc_last_edge hd
  have hwa : w = a := childStep_unique_parent hnd he hv
  rw [hwa] at hw
  rcases hw with rfl | hdw
  · exact absurd (childStep_rank rank hrank hu) (lt_irrefl _)
  · have h1 : rank u < rank a := descR_rank rank hrank hdw
    have h2 : rank a < rank u := childStep_rank rank hrank hu
    omega

/-- Subtrees rooted at distinct children of the same parent are disjoint. -/
theorem sibling_subtree_disjoint {reg : Registry} (rank : String → Nat)
    (hnd : (reg.agents.map (fun ag => ag.id)).Nodup)
    (hrank : ∀ ag ∈ reg.agents, ∀ p, ag.parent_id = some p → rank p < rank ag.id)
    {a u v z : String}
    (hu : childStep reg a u) (hv : childStep reg a v) (huv : u ≠ v)
    (hzu : z = u ∨ DescR reg u z) (hzv : z = v ∨ DescR reg v z) : False := by
  rcases hzu with rfl | hdu
  · rcases hzv with heq | hdv
    · exact huv heq
    · exact no_desc_sibling rank hnd hrank hv hu (fun e => huv e.symm) hdv
  · rcases hzv with rfl | hdv
    · exact no_desc_sibling rank hnd hrank hu hv huv hdu
    · rcases desc_comparable rank hnd hrank (rank z) z (le_refl _) u v hdu hdv with
        heq | h | h
      · exact huv heq
      · exact no_desc_sibling rank hnd hrank hu hv huv h
      · exact no_desc_sibling rank hnd hrank hv hu (fun e => huv e.symm) h

/-- A descendant path survives into a sub-registry as long as every node of
the subtree is still registered there. -/
theorem descR_transfer {reg' reg : Registry}
    (hsub : List.Sublist reg'.agents reg.agents)
    (hnd : (reg.agents.map (fun ag => ag.id)).Nodup)
    {x b : String} (hd : DescR reg x b)
    (hkeep : ∀ z, DescR reg x z → lookupAgent reg' z ≠ none) :
    DescR reg' x b := by
  induction hd with
  | single h1 =>
    obtain ⟨ag, hm, hi, hp⟩ := h1
    have hk := hkeep _ (Relation.TransGen.single ⟨ag, hm, hi, hp⟩)
    rcases hfind : lookupAgent reg' ag.id with _ | e
    · rw [hi] at hfind; exact absurd hfind hk
    · have he : e = ag := lookup_eq_of_sublist hsub hnd hm hfind
      have hmem' : e ∈ reg'.agents := List.mem_of_find?_eq_some (show
        reg'.agents.find? (fun q => q.id == ag.id) = some e from hfind)
      rw [he] at hmem'
      exact Relation.TransGen.single ⟨ag, hmem', hi, hp⟩
  | tail hd1 hr ih =>
    obtain ⟨ag, hm, hi, hp⟩ := hr
    have hk := hkeep _ (Relation.TransGen.tail hd1 ⟨ag, hm, hi, hp⟩)
    rcases hfind : lookupAgent reg' ag.id with _ | e
    · rw [hi] at hfind; exact absurd hfind hk
    · have he : e = ag := lookup_eq_of_sublist hsub hnd hm hfind
      have hmem' : e ∈ reg'.agents := List.mem_of_find?_eq_some (show
        reg'.agents.find? (fun q => q.id == ag.id) = some e from hfind)
      rw [he] at hmem'
      exact Relation.TransGen.tail ih ⟨ag, hmem', hi, hp⟩

theorem filter_sublist_filter {α : Type} (p q : α → Bool)
    (h : ∀ x, p x = true → q x = true) :
    ∀ l : List α, List.Sublist (l.filter p) (l.filter q) := by
  intro l
  induction l with
  | nil => simp
  | cons x xs ih =>
    by_cases hp : p x = true
    · rw [List.filter_cons_of_pos hp, List.filter_cons_of_pos (h x hp)]
      exact List.Sublist.cons₂ x ih
    · rw [List.filter_cons_of_neg (by simpa using hp)]
      by_cases hq : q x = true
      · rw [List.filter_cons_of_pos hq]
        exact List.Sublist.cons x ih
      · rw [List.filter_cons_of_neg (by simpa using hq)]
        exact ih

theorem lookup_unregister_self (reg : Registry) (aid : String) :
    lookupAgent (unregisterAgent reg aid) aid = none := by
  rw [lookupAgent, unregisterAgent]
  rw [List.find?_eq_none]
  intro x hx
  have h2 := (List.mem_filter.mp hx).2
  simp only [Bool.not_eq_true'] at h2
  simp [h2]

/-- Under distinct ids, an acyclicity rank, and enough fuel, terminating a
registered agent removes it and every descendant observed beforehand from both
the registry and the active set. -/
theorem terminate_removes (rank : String → Nat) :
    ∀ (fuel : Nat) (st : OrchState) (a : String),
    (st.registry.agents.map (fun ag => ag.id)).Nodup →
    (∀ ag ∈ st.registry.agents, ∀ p, ag.parent_id = some p → rank p < rank ag.id) →
    (lookupAgent st.registry a).isSome = true →
    rankMeasure rank st a < fuel →
    ∀ b, (b = a ∨ DescR st.registry a b) →
      lookupAgent (terminate_agent fuel st a).registry b = none ∧
      b ∉ (terminate_agent fuel st a).active := by
  intro fuel
  induction fuel with
  | zero => intro st a _ _ _ hfuel; exact absurd hfuel (Nat.not_lt_zero _)
  | succ F IH =>
    intro st a hnd hrank hreg hfuel
    obtain ⟨agA, hagA⟩ := Option.isSome_iff_exists.mp hreg
    have hchsub : List.Sublist (childrenOf st.registry a) st.registry.agents := by
      rw [childrenOf]
      exact List.filter_sublist _
    have hchildnd : ((childrenOf st.registry a).map (fun ag => ag.id)).Nodup :=
      hnd.sublist (hchsub.map (fun ag => ag.id))
    have hfold : ∀ (todo done : List Agent) (s : OrchState),
        childrenOf st.registry a = done ++ todo →
        List.Sublist s.registry.agents st.registry.agents →
        List.Sublist s.active st.active →
        (∀ z, lookupAgent s.registry z = none →
          lookupAgent st.registry z = none ∨
          ∃ c ∈ done, z = c.id ∨ DescR st.registry c.id z) →
        (∀ c ∈ done, ∀ b2, (b2 = c.id ∨ DescR st.registry c.id b2) →
          lookupAgent s.registry b2 = none ∧ b2 ∉ s.active) →
        (List.Sublist
            (todo.foldl (fun acc c => terminate_agent F acc c.id) s).registry.agents
            st.registry.agents ∧
         List.Sublist (todo.foldl (fun acc c => terminate_agent F acc c.id) s).active
            st.active ∧
         (∀ c ∈ childrenOf st.registry a, ∀ b2,
            (b2 = c.id ∨ DescR st.registry c.id b2) →
            lookupAgent
              (todo.foldl (fun acc c => terminate_agent F acc c.id) s).registry b2 = none ∧
            b2 ∉ (todo.foldl (fun acc c => terminate_agent F acc c.id) s).active)) := by
      intro todo
      induction todo with
      | nil =>
        intro done s hsplit hsubR hsubA hcause hdone
        refine ⟨hsubR, hsubA, ?_⟩
        intro c hc b2 hb2
        rw [List.append_nil] at hsplit
        exact hdone c (by rwa [hsplit] at hc) b2 hb2
      | cons c rest ihl =>
        intro done s hsplit hsubR hsubA hcause hdone
        simp only [List.foldl_cons]
        have hcmem : c ∈ childrenOf st.registry a := by
          rw [hsplit]
          exact List.mem_append.mpr (Or.inr (List.mem_cons_self c rest))
        have hcstep : childStep st.registry a c.id := childrenOf_step hcmem
        have hcmemSt : c ∈ st.registry.agents := by
          have h2 := hcmem
          rw [childrenOf, List.mem_filter] at h2
          exact h2.1
        have hdistinct : ∀ cj ∈ done, cj.id ≠ c.id := by
          intro cj hcj he
          have h3 : ((done ++ c :: rest).map (fun ag => ag.id)).Nodup := by
            rw [← hsplit]
            exact hchildnd
          rw [List.map_append] at h3
          have h4 := List.nodup_append.mp h3
          exact h4.2.2 (List.mem_map_of_mem _ hcj)
            (by rw [List.map_cons, he]; exact List.mem_cons_self _ _)
        have hcreg : lookupAgent s.registry c.id = some c := by
          rcases hfind : lookupAgent s.registry c.id with _ | e
          · exfalso
            rcases hcause c.id hfind with h2 | ⟨cj, hcj, hcase⟩
            · rw [show lookupAgent st.registry c.id =
                  st.registry.agents.find? (fun q => q.id == c.id) from rfl,
                find?_id_of_mem_nodup st.registry.agents hnd c hcmemSt] at h2
              cases h2
            · have hcjstep : childStep st.registry a cj.id :=
                childrenOf_step (by
                  rw [hsplit]
                  exact List.mem_append.mpr (Or.inl hcj))
              exact sibling_subtree_disjoint rank hnd hrank hcjstep hcstep
                (hdistinct cj hcj) hcase (Or.inl rfl)
          · have he := lookup_eq_of_sublist hsubR hnd hcmemSt hfind
            rw [he]
        have hcmemS : c ∈ s.registry.agents := List.mem_of_find?_eq_some
          (show s.registry.agents.find? (fun q => q.id == c.id) = some c from hcreg)
        have hrankc : rank a < rank c.id := childStep_rank rank hrank hcstep
        have hmlt : rankMeasure rank s c.id < F := by
          have hsubf : List.Sublist
              (s.registry.agents.filter (fun ag => decide (rank c.id < rank ag.id)))
              (s.registry.agents.filter (fun ag => decide (rank a < rank ag.id))) := by
            refine filter_sublist_filter _ _ ?_ _
            intro x hx
            have h2 := of_decide_eq_true hx
            exact decide_eq_true (by omega)
          have hlen1 := hsubf.length_le
          have hstrict : (s.registry.agents.filter
                (fun ag => decide (rank c.id < rank ag.id))).length <
              (s.registry.agents.filter
                (fun ag => decide (rank a < rank ag.id))).length := by
            refine lt_of_le_of_ne hlen1 ?_
            intro heq
            have heql := hsubf.eq_of_length heq
            have hcin : c ∈ s.registry.agents.filter
                (fun ag => decide (rank a < rank ag.id)) :=
              List.mem_filter.mpr ⟨hcmemS, by simpa using hrankc⟩
            rw [← heql] at hcin
            have h5 := (List.mem_filter.mp hcin).2
            simp at h5
          have hsubf2 : List.Sublist
              (s.registry.agents.filter (fun ag => decide (rank a < rank ag.id)))
              (st.registry.agents.filter (fun ag => decide (rank a < rank ag.id))) :=
            hsubR.filter _
          have hlen2 := hsubf2.length_le
          rw [rankMeasure] at hfuel ⊢
          omega
        have hndS : (s.registry.agents.map (fun ag => ag.id)).Nodup :=
          hnd.sublist (hsubR.map (fun ag => ag.id))
        have hrankS : ∀ ag ∈ s.registry.agents, ∀ p,
            ag.parent_id = some p → rank p < rank ag.id :=
          fun ag hag => hrank ag (hsubR.subset hag)
        have hIH := IH s c.id hndS hrankS (by rw [hcreg]; rfl) hmlt
        have hsubR' : List.Sublist (terminate_agent F s c.id).registry.agents
            st.registry.agents := (terminate_sublist F s c.id).1.trans hsubR
        have hsubA' : List.Sublist (terminate_agent F s c.id).active st.active :=
          (terminate_sublist F s c.id).2.trans hsubA
        have hcause' : ∀ z, lookupAgent (terminate_agent F s c.id).registry z = none →
            lookupAgent st.registry z = none ∨
            ∃ cj ∈ done ++ [c], z = cj.id ∨ DescR st.registry cj.id z := by
          intro z hz
          rcases (terminate_removed_cause F s c.id z).1 hz with h2 | h2 | h2
          · rcases hcause z h2 with h3 | ⟨cj, hcj, h4⟩
            · exact Or.inl h3
            · exact Or.inr ⟨cj, List.mem_append.mpr (Or.inl hcj), h4⟩
          · exact Or.inr ⟨c, List.mem_append.mpr (Or.inr (List.mem_singleton.mpr rfl)),
              Or.inl h2⟩
          · exact Or.inr ⟨c, List.mem_append.mpr (Or.inr (List.mem_singleton.mpr rfl)),
              Or.inr (descR_mono (fun q hq => hsubR.subset hq) h2)⟩
        have hdone' : ∀ cj ∈ done ++ [c], ∀ b2,
            (b2 = cj.id ∨ DescR st.registry cj.id b2) →
            lookupAgent (terminate_agent F s c.id).registry b2 = none ∧
            b2 ∉ (terminate_agent F s c.id).active := by
          intro cj hcj b2 hb2
          rcases List.mem_append.mp hcj with hcjd | hcjc
          · have hold := hdone cj hcjd b2 hb2
            refine ⟨?_, ?_⟩
            · exact find?_none_of_sublist _ (terminate_sublist F s c.id).1 hold.1
            · intro hmem
              exact hold.2 ((terminate_sublist F s c.id).2.subset hmem)
          · have hcjc2 : cj = c := List.mem_singleton.mp hcjc
            subst hcjc2
            rcases hb2 with rfl | hdesc
            · exact hIH cj.id (Or.inl rfl)
            · have hkeep : ∀ z, DescR st.registry cj.id z →
                  lookupAgent s.registry z ≠ none := by
                intro z hdz hznone
                rcases hcause z hznone with h3 | ⟨cj2, hcj2, h4⟩
                · obtain ⟨w, _, he⟩ := desc_last_edge hdz
                  obtain ⟨agz, hmz, hiz, _⟩ := he
                  rw [← hiz, show lookupAgent st.registry agz.id =
                      st.registry.agents.find? (fun q => q.id == agz.id) from rfl,
                    find?_id_of_mem_nodup st.registry.agents hnd agz hmz] at h3
                  cases h3
                · have hcj2step : childStep st.registry a cj2.id :=
                    childrenOf_step (by
                      rw [hsplit]
                      exact List.mem_append.mpr (Or.inl hcj2))
                  exact sibling_subtree_disjoint rank hnd hrank hcj2step hcstep
                    (hdistinct cj2 hcj2) h4 (Or.inr hdz)
              have hdesc' : DescR s.registry cj.id b2 :=
                descR_transfer hsubR hnd hdesc hkeep
              exact hIH b2 (Or.inr hdesc')
        exact ihl (done ++ [c]) (terminate_agent F s c.id)
          (by rw [hsplit]; simp) hsubR' hsubA' hcause' hdone'
    have hmain := hfold (childrenOf st.registry a) [] st rfl
      (List.Sublist.refl _) (List.Sublist.refl _)
      (fun z hz => Or.inl hz) (fun cj hcj => absurd hcj (List.not_mem_nil cj))
    obtain ⟨hsubR1, hsubA1, hall⟩ := hmain
    intro b hb
    simp only [terminate_agent, hagA]
    rcases hb with rfl | hdesc
    · refine ⟨lookup_unregister_self _ _, ?_⟩
      intro hmem
      have h2 := (List.mem_filter.mp hmem).2
      simp at h2
    · obtain ⟨mid, hstep1, hrest⟩ := desc_head_edge hdesc
      obtain ⟨agc, hmc, hic, hpc⟩ := hstep1
      have hagcmem : agc ∈ childrenOf st.registry a :=
        List.mem_filter.mpr ⟨hmc, decide_eq_true hpc⟩
      have hsubtree : b = agc.id ∨ DescR st.registry agc.id b := by
        rcases hrest with rfl | ht
        · exact Or.inl hic.symm
        · rw [← hic] at ht
          exact Or.inr ht
      have hres := hall agc hagcmem b hsubtree
      refine ⟨?_, ?_⟩
      · exact find?_none_of_sublist _ (List.filter_sublist _) hres.1
      · intro hmem
        exact hres.2 ((List.filter_sublist _).subset hmem)

/-- **C4.** After `terminate(a)` returns, every agent `b` that was a
descendant of `a` as observed before the call — and `a` itself — satisfies
`get(b) = ⊥`: it has been removed from the registry and from the active set
by the children-first recursive termination.  The hypotheses state the
well-formedness the orchestrator maintains: registered ids are distinct, the
parent links form a forest (witnessed by a rank function that increases from
parent to child, e.g. spawn order), `a` is registered, and the recursion fuel
exceeds the number of registered agents of rank above `a`'s. -/
theorem terminate_agent_C4 (rank : String → Nat) (fuel : Nat) (st : OrchState)
    (a : String)
    (hnd : (st.registry.agents.map (fun ag => ag.id)).Nodup)
    (hrank : ∀ ag ∈ st.registry.agents, ∀ p, ag.parent_id = some p →
      rank p < rank ag.id)
    (hreg : (lookupAgent st.registry a).isSome = true)
    (hfuel : rankMeasure rank st a < fuel) :
    ∀ b, (b = a ∨ DescR st.registry a b) →
      lookupAgent (terminate_agent fuel st a).registry b = none ∧
      b ∉ (terminate_agent fuel st a).active :=
  terminate_removes rank fuel st a hnd hrank hreg hfuel

def c4A : Agent :=
  { id := "a", agent_type := "research", parent_id := none,
    can_spawn_children := true, capabilities := [] }

def c4B : Agent :=
  { id := "bb", agent_type := "research", parent_id := some "a",
    can_spawn_children := true, capabilities := [] }

def c4C : Agent :=
  { id := "ccc", agent_type := "research", parent_id := some "bb",
    can_spawn_children := true, capabilities := [] }

def c4St : OrchState :=
  { registry := { agents := [c4A, c4B, c4C], factories := ["research"] },
    active := ["a", "bb", "ccc"], max_concurrent := 50 }

/-- Witness for C4: a three-agent chain rooted at `"a"`; terminating the root
removes the grandchild from both the registry and the active set. -/
theorem terminate_agent_C4_witness :
    (c4St.registry.agents.map (fun ag => ag.id)).Nodup ∧
    (lookupAgent c4St.registry "a").isSome = true ∧
    rankMeasure (fun s => s.length) c4St "a" < 3 ∧
    DescR c4St.registry "a" "ccc" ∧
    lookupAgent (terminate_agent 3 c4St "a").registry "ccc" = none ∧
    "ccc" ∉ (terminate_agent 3 c4St "a").active := by
  have hrank : ∀ ag ∈ c4St.registry.agents, ∀ p, ag.parent_id = some p →
      (fun s => s.length) p < (fun s => s.length) ag.id := by
    intro ag hag p hp
    simp only [c4St, List.mem_cons, List.mem_singleton, List.not_mem_nil,
      or_false] at hag
    rcases hag with rfl | rfl | rfl
    · simp [c4A] at hp
    · simp only [c4B] at hp
      rw [Option.some.injEq] at hp
      subst hp
      decide
    · simp only [c4C] at hp
      rw [Option.some.injEq] at hp
      subst hp
      decide
  have h := terminate_agent_C4 (fun s => s.length) 3 c4St "a"
    (by decide) hrank (by rfl) (by decide)
  have hdesc : DescR c4St.registry "a" "ccc" :=
    Relation.TransGen.tail
      (Relation.TransGen.single ⟨c4B, by decide, rfl, rfl⟩)
      ⟨c4C, by decide, rfl, rfl⟩
  exact ⟨by decide, by rfl, by decide, hdesc,
    (h "ccc" (Or.inr hdesc)).1, (h "ccc" (Or.inr hdesc)).2⟩

end Spec2Proof
